import Mathlib

/-!
Verification of the aggregation and query-matching engine of the
wolfi-package-status tool, as described in its specification.

The development shallowly embeds the relevant Go code:

* the raw package record type decoded from an APKINDEX archive;
* the query matchers (exact string matchers, `part_004` first half;
  regex-capable `query` objects, `part_004` second half);
* the three aggregation iterations found in the repository:
  - `V6`: `part_006` (`Matcher`-based, sub-packages kept as name lists);
  - `V7`: `part_007` (sub-packages carry full metadata);
  - `Chan`: `src/main.go` (channel-based fan-out / fan-in);
* the sorting, dedup and latest-only trim logic shared by these iterations.

Go maps are modeled as association lists with first-occurrence lookup and
in-place replacement (`setKey`), which matches Go map assignment semantics
pointwise; map iteration that reassigns every key is modeled as `List.map`
over the association list (iteration order is irrelevant for pointwise
updates).  `sort.Slice` with a `less` comparator is modeled as a
deterministic insertion sort over the complement order `le a b = !(less b a)`:
Go guarantees only that the output is a permutation sorted with respect to
`less`, and all statements proved here are invariant under that choice.
The go-apk-version comparator is external to the repository and is kept as
an opaque parameter `lt : String → String → Bool`.
-/

/-- A raw package record as decoded from an APKINDEX archive
(`gitlab.alpinelinux.org/alpine/go/repository.Package`, the fields this
tool reads). Build timestamps are opaque and modeled as naturals. -/
structure Package where
  name : String
  version : String
  origin : String
  buildTime : Nat
deriving Repr, DecidableEq

/-- One package version entry (`PackageMeta` in `part_006`/`part_007`,
`Version` in `src/main.go`; the field sets coincide). -/
structure PackageMeta where
  buildTime : Nat
  origin : String
  repository : String
  version : String
deriving Repr, DecidableEq

/-- One sub-package version entry (`SubPackageMeta` of `part_007`):
a `PackageMeta` plus the sub-package's own name. -/
structure SubPackageMeta where
  meta : PackageMeta
  name : String
deriving Repr, DecidableEq

/-- One line printed by the direct (no queries) output path of
`src/main.go` line 308: package name, version, build time, the friendly
name of the repository, and the optional parent/origin suffix that is
present exactly when `--show-parent-package` was given.  The humanized
time rendering is a pure function of `buildTime` and is not modeled. -/
structure PrintedLine where
  name : String
  version : String
  buildTime : Nat
  repository : String
  parentInfo : Option String
deriving Repr, DecidableEq

/-- Association-list model of a Go `map[string]α`: first-occurrence lookup. -/
def lookupStore {α : Type} : List (String × α) → String → Option α
  | [], _ => none
  | (k2, v) :: rest, k => if k2 = k then some v else lookupStore rest k

/-- Association-list model of Go map assignment `m[k] = v`: replace the
first binding of `k`, or append a new binding. -/
def setKey {α : Type} : List (String × α) → String → α → List (String × α)
  | [], k, v => [(k, v)]
  | (k2, v2) :: rest, k, v =>
      if k2 = k then (k, v) :: rest else (k2, v2) :: setKey rest k v

/-- The `Matcher` interface of `part_004` (first half): anything that can
answer `MatchString`. -/
abbrev Matcher : Type := String → Bool

/-- Exact-string matcher (`queryString.MatchString` via `NewQueryString`,
`part_004` first half): the stored string must equal the reference. -/
def NewQueryString (ref : String) : Matcher := fun s => ref == s

/-- Disjunction over a query set (`matchReference`, `part_004` first half). -/
def matchReference (queries : List Matcher) (ref : String) : Bool :=
  queries.any fun q => q ref

namespace Q

/-- The concrete `query` struct of `part_004` (second half): an exact
string or a compiled pattern.  A compiled Go regexp is modeled at the
library boundary by its total match function `String → Bool`. -/
structure Query where
  s : String
  r : Option (String → Bool)

/-- The `match` method of `query` (`part_004` second half, lines 38-43):
use the compiled pattern when present, otherwise exact equality. -/
def Query.matchString (q : Query) (ref : String) : Bool :=
  match q.r with
  | some re => re ref
  | none => q.s == ref

/-- Exact-query constructor (`NewQueryString`, `part_004` second half). -/
def NewQueryString (ref : String) : Query := { s := ref, r := none }

/-- Pattern-query constructor (`NewQueryRegexp`, `part_004` lines 51-59).
`compile` models `regexp.Compile` of the Go standard library: it either
rejects the pattern string or yields a total match predicate.  The
constructor fails exactly when compilation fails. -/
def NewQueryRegexp (compile : String → Option (String → Bool)) (ref : String) :
    Except String Query :=
  match compile ref with
  | none => Except.error ref
  | some re => Except.ok { s := "", r := some re }

/-- Disjunction over query objects (`matchQueries`, `part_004` lines 61-68). -/
def matchQueries (queries : List Query) (ref : String) : Bool :=
  queries.any fun q => q.matchString ref

/-- Modelled from the spec: the driver (the repository's `execute`
function, whose definition is not under `src/`; only its tests call it)
builds the whole query set up front — pattern queries through
`NewQueryRegexp` when `--regex` was given — and the first invalid pattern
aborts the construction (spec section 7: InvalidPatternError fails fast
on bad input). -/
def buildQueries (compile : String → Option (String → Bool)) (asRegex : Bool) :
    List String → Except String (List Query)
  | [] => Except.ok []
  | a :: rest =>
      if asRegex then
        match NewQueryRegexp compile a with
        | Except.error e => Except.error e
        | Except.ok q =>
            match buildQueries compile asRegex rest with
            | Except.error e => Except.error e
            | Except.ok qs => Except.ok (q :: qs)
      else
        match buildQueries compile asRegex rest with
        | Except.error e => Except.error e
        | Except.ok qs => Except.ok (NewQueryString a :: qs)

/-- Modelled from the spec: the run first builds all queries and only then
fetches and filters the sources (spec sections 5 and 7: query
construction precedes fetching, so an invalid pattern aborts the run
before any fetch).  `fetch` resolves a source reference to its decoded
records; the result of a successful run is the list of records matching
the query set. -/
def runQ (compile : String → Option (String → Bool)) (asRegex : Bool)
    (args : List String) (fetch : String → List Package) (sources : List String) :
    Except String (List Package) :=
  match buildQueries compile asRegex args with
  | Except.error e => Except.error e
  | Except.ok qs =>
      Except.ok (((sources.map fetch).flatten).filter fun p => matchQueries qs p.name)

end Q

/-- Insertion step of the insertion sort used to model `sort.Slice`. -/
def insertLe {α : Type} (le : α → α → Bool) (x : α) : List α → List α
  | [] => [x]
  | y :: ys => if le x y then x :: y :: ys else y :: insertLe le x ys

/-- Deterministic model of Go's `sort.Slice`: insertion sort with respect
to `le`.  The callers pass `le a b = !(less b a)` where `less` is the
comparison closure given to `sort.Slice`, so a sorted output is exactly
an output that `sort.Slice` may produce. -/
def sortLe {α : Type} (le : α → α → Bool) : List α → List α
  | [] => []
  | x :: xs => insertLe le x (sortLe le xs)

/-- Complement order for version entries: the `sort.Slice` closures of
`part_006` line 109, `part_007` line 127 and `src/main.go` line 339 sort
ascending by the external apk-version comparator `lt` on the version
strings. -/
def leVer (lt : String → String → Bool) (a b : PackageMeta) : Bool :=
  !(lt b.version a.version)

/-- Lexicographic order on sequences of naturals, used below to model
Go's byte-wise string comparison on the code points of a string (UTF-8
encoding preserves code-point order, so the two orders agree). -/
def ltNatList : List Nat → List Nat → Bool
  | [], [] => false
  | [], _ :: _ => true
  | _ :: _, [] => false
  | a :: as, b :: bs =>
      if a < b then true
      else if b < a then false
      else ltNatList as bs

/-- Strict lexicographic string order, modeling Go's `strings.Compare`
returning `-1` and the string order used by `slices.Sort` and
`sort.Strings`. -/
def ltStr (a b : String) : Bool :=
  ltNatList (a.data.map Char.toNat) (b.data.map Char.toNat)

/-- The `less` closure of `part_007` Sort for sub-package entries
(lines 137-148): by name first (`strings.Compare`), then ascending by
the version comparator. -/
def lessSub (lt : String → String → Bool) (a b : SubPackageMeta) : Bool :=
  if ltStr a.name b.name then true
  else if ltStr b.name a.name then false
  else lt a.meta.version b.meta.version

/-- Complement order for sub-package entries, used to model the
`sort.Slice` call of `part_007` Sort. -/
def leSub (lt : String → String → Bool) (a b : SubPackageMeta) : Bool :=
  !(lessSub lt b a)

/-- Non-strict lexicographic string order as a boolean, modeling
`slices.Sort` of `utils.go`. -/
def leStr (a b : String) : Bool := !(ltStr b a)

/-- Helper for `removeDuplicates`: keep the first occurrence of each
string, remembering what was already seen. -/
def removeDuplicatesAux (seen : List String) : List String → List String
  | [] => []
  | x :: xs =>
      if x ∈ seen then removeDuplicatesAux seen xs
      else x :: removeDuplicatesAux (x :: seen) xs

/-- `removeDuplicates` of `src/main.go` lines 49-61: keep the first
occurrence of each element, preserving order. -/
def removeDuplicates (l : List String) : List String :=
  removeDuplicatesAux [] l

/-- `dedup` of `utils.go` lines 18-28: collect the distinct elements as
the keys of a set-map and sort them ascending.  Go map keys enumerate the
distinct elements in unspecified order, so after `slices.Sort` the result
is the ascending enumeration of the distinct elements; it is modeled as
sorting the first occurrences. -/
def dedup (l : List String) : List String :=
  sortLe leStr (removeDuplicates l)

/-- The latest-only trim of a versions list (`part_006` Print lines
130-135, `part_007` Print lines 159-163, `src/main.go` lines 353-358):
when more than one entry is present, keep only the suffix starting at the
last index. -/
def trimVersions (l : List PackageMeta) : List PackageMeta :=
  if l.length > 1 then l.drop (l.length - 1) else l

/-- Asymmetry of a strict boolean comparator. -/
def Asymm (lt : String → String → Bool) : Prop :=
  ∀ a b, lt a b = true → lt b a = false

/-- Negative transitivity of a strict boolean comparator; together with
`Asymm` this says `lt` is a strict weak order, which is what `sort.Slice`
requires of its `less` function. -/
def NegTrans (lt : String → String → Bool) : Prop :=
  ∀ a b c, lt a b = false → lt b c = false → lt a c = false

namespace V6

/-- `PackageData` of `part_006`: version entries plus sub-package names. -/
structure PackageData where
  versions : List PackageMeta
  subPackages : List String
deriving Repr, DecidableEq

/-- The shared result store of `part_006` (`PackageInfoOutput.Result`). -/
abbrev Store : Type := List (String × PackageData)

/-- `PackageInfoOutput.AddPackageMeta` of `part_006` lines 46-100: a
record whose name matches the query set is appended as a version entry
under its own name; otherwise, when its origin is non-empty and matches,
its name is appended to the origin's sub-package list; otherwise the
record is dropped.  The mutex-guarded body is modeled as one atomic store
update. -/
def AddPackageMeta (q : List Matcher) (pkg : Package) (repo : String)
    (s : Store) : Store :=
  let pkgVersion : PackageMeta :=
    { buildTime := pkg.buildTime, origin := pkg.origin,
      repository := repo, version := pkg.version }
  if matchReference q pkg.name then
    -- isMatched: append under the record's own name
    match lookupStore s pkg.name with
    | some pd => setKey s pkg.name { pd with versions := pd.versions ++ [pkgVersion] }
    | none => setKey s pkg.name { versions := [pkgVersion], subPackages := [] }
  else if pkg.origin.length != 0 && matchReference q pkg.origin then
    -- isSubPkg: append the name to the origin's sub-package list
    match lookupStore s pkg.origin with
    | some pd => setKey s pkg.origin { pd with subPackages := pd.subPackages ++ [pkg.name] }
    | none => setKey s pkg.origin { versions := [], subPackages := [pkg.name] }
  else s

/-- Per-key body of `PackageInfoOutput.Sort` of `part_006` lines 103-124:
sort the versions ascending when more than one is present, and dedup the
sub-package name list when non-empty. -/
def sortStep (lt : String → String → Bool) (pd : PackageData) : PackageData :=
  let pd1 :=
    if pd.versions.length > 1 then
      { pd with versions := sortLe (leVer lt) pd.versions }
    else pd
  if pd1.subPackages.length > 0 then
    { pd1 with subPackages := dedup pd1.subPackages }
  else pd1

/-- `PackageInfoOutput.Sort` of `part_006`: every key is reassigned its
sorted data (the loop writes `pkgInfo[key] = pkgData`). -/
def SortStore (lt : String → String → Bool) (s : Store) : Store :=
  s.map fun kv => (kv.1, sortStep lt kv.2)

/-- The key a call touches, read off the classification branch of
`AddPackageMeta`: the record's name for a primary match, the origin for a
sub-package match, nothing for a dropped record. -/
def touchedKey (q : List Matcher) (pkg : Package) : Option String :=
  if matchReference q pkg.name then some pkg.name
  else if pkg.origin.length != 0 && matchReference q pkg.origin then some pkg.origin
  else none

/-- The value `AddPackageMeta` installs at its touched key, as a function
of the value currently stored there. -/
def applyCall (pkg : Package) (repo : String) (primary : Bool) :
    Option PackageData → PackageData :=
  let pkgVersion : PackageMeta :=
    { buildTime := pkg.buildTime, origin := pkg.origin,
      repository := repo, version := pkg.version }
  if primary then
    fun cur =>
      match cur with
      | some pd => { pd with versions := pd.versions ++ [pkgVersion] }
      | none => { versions := [pkgVersion], subPackages := [] }
  else
    fun cur =>
      match cur with
      | some pd => { pd with subPackages := pd.subPackages ++ [pkg.name] }
      | none => { versions := [], subPackages := [pkg.name] }

/-- A sequential execution of `AddPackageMeta` calls, each call being one
atomic critical section (the method locks the store's mutex for its whole
body); a concurrent run over several workers is an interleaving of their
call sequences executed through this fold. -/
def runCalls (q : List Matcher) (s : Store) (calls : List (Package × String)) : Store :=
  calls.foldl (fun st c => AddPackageMeta q c.1 c.2 st) s

end V6

namespace V7

/-- `PackageData` of `part_007`: version entries plus full-metadata
sub-package entries. -/
structure PackageData where
  versions : List PackageMeta
  subPackages : List SubPackageMeta
deriving Repr, DecidableEq

/-- The shared result store of `part_007` (`PackageInfoOutput.Result`). -/
abbrev Store : Type := List (String × PackageData)

/-- `PackageInfoOutput.AddPackageMeta` of `part_007` lines 59-119,
embedded exactly as written: when the record's name matches the query
set, the record is added as a sub-package of its origin if the origin is
non-empty and also matches, and is otherwise dropped entirely; when the
name does not match, the record is appended as a primary version entry
under its own name. -/
def AddPackageMeta (q : List Matcher) (pkg : Package) (repo : String)
    (s : Store) : Store :=
  let pkgVersion : PackageMeta :=
    { buildTime := pkg.buildTime, origin := pkg.origin,
      repository := repo, version := pkg.version }
  if matchReference q pkg.name then
    if pkg.origin.length != 0 && matchReference q pkg.origin then
      -- isSubPkg (part_007 lines 66-68)
      let subPkgInfo : SubPackageMeta := { meta := pkgVersion, name := pkg.name }
      match lookupStore s pkg.origin with
      | some pd => setKey s pkg.origin { pd with subPackages := pd.subPackages ++ [subPkgInfo] }
      | none => setKey s pkg.origin { versions := [], subPackages := [subPkgInfo] }
    else
      -- early return (part_007 line 70): the record is dropped
      s
  else
    -- isMatched (part_007 line 73)
    match lookupStore s pkg.name with
    | some pd => setKey s pkg.name { pd with versions := pd.versions ++ [pkgVersion] }
    | none => setKey s pkg.name { versions := [pkgVersion], subPackages := [] }

/-- Per-key body of `PackageInfoOutput.Sort` of `part_007` lines 122-153:
sort the versions ascending when more than one is present, and sort the
sub-package entries by name then version when more than one is present.
(`sort.Slice` permutes the shared backing array in place, so the sorted
order reaches the map even though the loop variable is a copy.) -/
def sortStep (lt : String → String → Bool) (pd : PackageData) : PackageData :=
  let pd1 :=
    if pd.versions.length > 1 then
      { pd with versions := sortLe (leVer lt) pd.versions }
    else pd
  if pd1.subPackages.length > 1 then
    { pd1 with subPackages := sortLe (leSub lt) pd1.subPackages }
  else pd1

/-- `PackageInfoOutput.Sort` of `part_007` over the whole store. -/
def SortStore (lt : String → String → Bool) (s : Store) : Store :=
  s.map fun kv => (kv.1, sortStep lt kv.2)

/-- The sub-package filter computed by `Print` of `part_007` lines
164-172 on the locally trimmed data: when the sub-package list is
non-empty and exactly one version remains, keep only the sub-package
entries whose version and repository equal those of that remaining
version entry.  (In the source this list is built into a local variable.) -/
def filterSubPackages (pd : PackageData) : List SubPackageMeta :=
  match pd.versions with
  | [v] =>
      if pd.subPackages.length > 0 then
        pd.subPackages.filter fun s =>
          s.meta.version == v.version && s.meta.repository == v.repository
      else pd.subPackages
  | _ => pd.subPackages

/-- Per-key effect on the store of the trim loop of `Print` of `part_007`
lines 157-175 (the `listAll = false` branch): the trimmed versions are
written back to the map (line 162), but the filtered sub-package list is
only assigned to the local copy of the struct and never written back, so
the stored sub-package list is unchanged. -/
def printTrimStep (pd : PackageData) : PackageData :=
  { versions := trimVersions pd.versions, subPackages := pd.subPackages }

/-- The whole-store trim phase of `Print` of `part_007` with
`listAll = false`. -/
def PrintTrimStore (s : Store) : Store :=
  s.map fun kv => (kv.1, printTrimStep kv.2)

end V7

namespace Chan

/-- `PackageInfo` of `src/main.go` lines 72-75: version entries plus
sub-package names. -/
structure PackageInfo where
  versions : List PackageMeta
  subPackages : List String
deriving Repr, DecidableEq

/-- The `Result` map of `src/main.go` line 78. -/
abbrev Result : Type := List (String × PackageInfo)

/-- The `SubPackages` map of `src/main.go` line 79. -/
abbrev SubPackagesMap : Type := List (String × List String)

/-- The matched branch of the worker loop of `src/main.go` lines 270-293:
append the version entry under the record's name, creating the entry with
an empty sub-package list when the key is new. -/
def addMatch (localResults : Result) (pkg : Package) (friendly : String) : Result :=
  let pkgVersion : PackageMeta :=
    { buildTime := pkg.buildTime, origin := pkg.origin,
      repository := friendly, version := pkg.version }
  match lookupStore localResults pkg.name with
  | some pi => setKey localResults pkg.name { pi with versions := pi.versions ++ [pkgVersion] }
  | none => setKey localResults pkg.name { versions := [pkgVersion], subPackages := [] }

/-- The sub-package gathering of `src/main.go` lines 296-299: append the
record's name to its origin's name list. -/
def addSubName (subs : SubPackagesMap) (origin name : String) : SubPackagesMap :=
  match lookupStore subs origin with
  | some l => setKey subs origin (l ++ [name])
  | none => setKey subs origin [name]

/-- The per-query match test of `src/main.go` lines 263-268: exact
equality, or - in regex mode - a valid pattern that matches.
`regexMatches q n` models `isValidRegex(q) && matchRegex(n, q)` of the
external regexp engine. -/
def matchFound (matchAsRegex : Bool) (regexMatches : String → String → Bool)
    (queryString : String) (name : String) : Bool :=
  (queryString == name) || (matchAsRegex && regexMatches queryString name)

/-- The direct print line of `src/main.go` lines 303-308 (no-queries
path), with the parent/origin suffix when `--show-parent-package` is on. -/
def renderDirect (showParent : Bool) (friendly : String) (pkg : Package) : PrintedLine :=
  { name := pkg.name, version := pkg.version, buildTime := pkg.buildTime,
    repository := friendly,
    parentInfo := if showParent then some pkg.origin else none }

/-- The body of the query loop of `src/main.go` lines 261-301 for one
record and one query string: add a version entry on a match (lines
270-295), then gather the sub-package name (lines 296-299; this block
runs on every query iteration, so names are gathered once per query). -/
def queryStep (matchAsRegex : Bool) (regexMatches : String → String → Bool)
    (friendly : String) (pkg : Package) (acc : Result × SubPackagesMap)
    (q : String) : Result × SubPackagesMap :=
  let acc1 :=
    if matchFound matchAsRegex regexMatches q pkg.name then
      (addMatch acc.1 pkg friendly, acc.2)
    else acc
  if pkg.origin != "" && pkg.origin != pkg.name then
    (acc1.1, addSubName acc1.2 pkg.origin pkg.name)
  else acc1

/-- Processing of one decoded record by the worker of `src/main.go` lines
257-309: with a non-empty query set, fold over the query strings, adding
a version entry on a match and gathering the sub-package name on every
iteration; with an empty query set, print the record directly. -/
def processPackage (queryStrings : List String) (matchAsRegex : Bool)
    (regexMatches : String → String → Bool) (showParent : Bool) (friendly : String)
    (st : Result × SubPackagesMap × List PrintedLine) (pkg : Package) :
    Result × SubPackagesMap × List PrintedLine :=
  if queryStrings.length > 0 then
    let st2 := queryStrings.foldl
      (queryStep matchAsRegex regexMatches friendly pkg) (st.1, st.2.1)
    (st2.1, st2.2, st.2.2)
  else
    (st.1, st.2.1, st.2.2 ++ [renderDirect showParent friendly pkg])

/-- One worker's record loop (`src/main.go` lines 257-310), starting from
empty local aggregates. -/
def processSource (queryStrings : List String) (matchAsRegex : Bool)
    (regexMatches : String → String → Bool) (showParent : Bool) (friendly : String)
    (pkgs : List Package) : Result × SubPackagesMap × List PrintedLine :=
  pkgs.foldl (processPackage queryStrings matchAsRegex regexMatches showParent friendly)
    ([], [], [])

/-- The results-channel receiver of `src/main.go` lines 143-159: merge a
worker's local results into the global map, appending version entries for
existing keys and installing the whole local value for new keys. -/
def mergeResults (results : Result) (loc : Result) : Result :=
  loc.foldl
    (fun g kv =>
      match lookupStore g kv.1 with
      | some pi => setKey g kv.1 { pi with versions := pi.versions ++ kv.2.versions }
      | none => setKey g kv.1 kv.2)
    results

/-- The sub-packages-channel receiver of `src/main.go` lines 161-172:
append each worker's gathered name lists. -/
def mergeSubs (subs : SubPackagesMap) (loc : SubPackagesMap) : SubPackagesMap :=
  loc.foldl
    (fun g kv =>
      match lookupStore g kv.1 with
      | some l => setKey g kv.1 (l ++ kv.2)
      | none => setKey g kv.1 kv.2)
    subs

/-- The outcome of the per-source I/O stages of the worker of
`src/main.go` lines 186-253, at the boundary of the external fetch and
decode collaborators. -/
inductive FetchOutcome where
  /-- download (or local stat), open and `IndexFromArchive` all succeeded,
  yielding the decoded records -/
  | records (pkgs : List Package)
  /-- the HTTP request failed (`client.Do` error, line 216) -/
  | downloadFailure
  /-- opening the downloaded file failed (`os.Open` error, line 243) -/
  | openFailure
  /-- reading the archive failed (`IndexFromArchive` error, line 249) -/
  | decodeFailure
deriving Repr, DecidableEq

/-- Whether the fetch and decode stages produced records. -/
def FetchOutcome.isRecords : FetchOutcome → Bool
  | records _ => true
  | _ => false

/-- How one worker goroutine of `src/main.go` ends. -/
inductive WorkerResult where
  /-- `os.Exit(code)` was called: the whole process aborts -/
  | exited (code : Nat)
  /-- the error was sent to the errors channel and the worker returned -/
  | reported
  /-- the worker completed and sent its local aggregates on the channels -/
  | contributed (res : Result) (subs : SubPackagesMap) (lines : List PrintedLine)
deriving Repr, DecidableEq

/-- Whether a worker called `os.Exit`. -/
def WorkerResult.isExited : WorkerResult → Bool
  | exited _ => true
  | _ => false

/-- The worker body of `src/main.go` lines 186-322 as a function of the
I/O outcome: a download failure calls `os.Exit(1)` (line 218); an open or
decode failure is sent to the errors channel and the worker returns
(lines 244 and 250); otherwise the records are processed and the local
aggregates contributed. -/
def worker (queryStrings : List String) (matchAsRegex : Bool)
    (regexMatches : String → String → Bool) (showParent : Bool)
    (friendly : String) (f : FetchOutcome) : WorkerResult :=
  match f with
  | FetchOutcome.downloadFailure => WorkerResult.exited 1
  | FetchOutcome.openFailure => WorkerResult.reported
  | FetchOutcome.decodeFailure => WorkerResult.reported
  | FetchOutcome.records pkgs =>
      let r := processSource queryStrings matchAsRegex regexMatches showParent friendly pkgs
      WorkerResult.contributed r.1 r.2.1 r.2.2

/-- One step of the fan-in of worker results: contributions are merged by
the channel receivers, reported errors only produce a diagnostic line. -/
def collectStep (acc : Result × SubPackagesMap × List PrintedLine) (w : WorkerResult) :
    Result × SubPackagesMap × List PrintedLine :=
  match w with
  | WorkerResult.contributed r s lns =>
      (mergeResults acc.1 r, mergeSubs acc.2.1 s, acc.2.2 ++ lns)
  | _ => acc

/-- Fan-in of all worker results, starting from the empty global maps of
`src/main.go` lines 129-130. -/
def collect (ws : List WorkerResult) : Result × SubPackagesMap × List PrintedLine :=
  ws.foldl collectStep ([], [], [])

/-- The fan-out / fan-in of `src/main.go`: run one worker per source and,
unless some worker called `os.Exit` (which kills the whole process,
modeled as `none`), merge all contributions after the wait-group barrier. -/
def driver (queryStrings : List String) (matchAsRegex : Bool)
    (regexMatches : String → String → Bool) (showParent : Bool)
    (sources : List (String × FetchOutcome)) :
    Option (Result × SubPackagesMap × List PrintedLine) :=
  let ws := sources.map fun s =>
    worker queryStrings matchAsRegex regexMatches showParent s.1 s.2
  if ws.any WorkerResult.isExited then none else some (collect ws)

/-- The name-list lookup `subPackages[_packageName]` of `src/main.go`
line 345: a missing key yields the empty (nil) list. -/
def getSubs (subs : SubPackagesMap) (k : String) : List String :=
  (lookupStore subs k).getD []

/-- Per-key body of the sort phase of `src/main.go` lines 336-349: only
keys with more than one version entry get their versions sorted and the
deduplicated sub-package name list attached; all other keys are left
untouched. -/
def sortPhaseStep (lt : String → String → Bool) (subs : SubPackagesMap)
    (kv : String × PackageInfo) : String × PackageInfo :=
  if kv.2.versions.length > 1 then
    (kv.1, { versions := sortLe (leVer lt) kv.2.versions,
             subPackages := removeDuplicates (getSubs subs kv.1) })
  else kv

/-- The sort phase of `src/main.go` lines 336-349 over the whole map. -/
def sortPhase (lt : String → String → Bool) (subs : SubPackagesMap) (results : Result) :
    Result :=
  results.map (sortPhaseStep lt subs)

/-- The aggregation pipeline of `src/main.go` up to and including the sort
phase: fan-out, barrier, fan-in, then per-key sorting and sub-package
attachment.  `none` models a process abort via `os.Exit`. -/
def runChan (queryStrings : List String) (matchAsRegex : Bool)
    (regexMatches : String → String → Bool) (showParent : Bool)
    (lt : String → String → Bool) (sources : List (String × FetchOutcome)) :
    Option Result :=
  match driver queryStrings matchAsRegex regexMatches showParent sources with
  | none => none
  | some (res, subs, _) => some (sortPhase lt subs res)

end Chan

/-- An interleaving of the call sequences of several workers: the trace
consumes, at each step, the head of one worker's remaining sequence, and
ends when every worker's sequence is exhausted.  Worker positions are
stable across steps. -/
inductive Interleaving {α : Type} : List (List α) → List α → Prop
  | nil (ls : List (List α)) (h : ∀ w ∈ ls, w = []) : Interleaving ls []
  | step (pre : List (List α)) (x : α) (xs : List α) (post : List (List α))
      (l : List α) (h : Interleaving (pre ++ xs :: post) l) :
      Interleaving (pre ++ (x :: xs) :: post) (x :: l)

/-- The effect of one `V6.AddPackageMeta` call on the value stored at an
arbitrary key `k`, read off the branches of the source: the call rewrites
only its touched key, and the new value there is a function of the value
currently stored there. -/
def V6.stepAt (q : List Matcher) (pkg : Package) (repo : String) (k : String)
    (cur : Option V6.PackageData) : Option V6.PackageData :=
  let pkgVersion : PackageMeta :=
    { buildTime := pkg.buildTime, origin := pkg.origin,
      repository := repo, version := pkg.version }
  if matchReference q pkg.name then
    if pkg.name = k then
      some (match cur with
        | some pd => { pd with versions := pd.versions ++ [pkgVersion] }
        | none => { versions := [pkgVersion], subPackages := [] })
    else cur
  else if pkg.origin.length != 0 && matchReference q pkg.origin then
    if pkg.origin = k then
      some (match cur with
        | some pd => { pd with subPackages := pd.subPackages ++ [pkg.name] }
        | none => { versions := [], subPackages := [pkg.name] })
    else cur
  else cur

section StoreLemmas

variable {α : Type}

theorem lookupStore_setKey (s : List (String × α)) (k k2 : String) (v : α) :
    lookupStore (setKey s k v) k2 = if k = k2 then some v else lookupStore s k2 := by
  induction s with
  | nil =>
    simp only [setKey, lookupStore]
  | cons a rest ih =>
    obtain ⟨ka, va⟩ := a
    simp only [setKey]
    by_cases h : ka = k
    · subst h
      simp only [if_pos rfl, lookupStore]
      by_cases h2 : ka = k2
      · subst h2; simp [lookupStore]
      · simp [lookupStore, h2]
    · simp only [if_neg h, lookupStore]
      by_cases h2 : ka = k2
      · subst h2
        have hk : ¬ k = ka := fun hh => h hh.symm
        simp [hk]
      · simp [h2, ih]

theorem lookupStore_map_values (f : α → α) (s : List (String × α)) (k : String) :
    lookupStore (s.map fun kv => (kv.1, f kv.2)) k = (lookupStore s k).map f := by
  induction s with
  | nil => simp [lookupStore]
  | cons a rest ih =>
    obtain ⟨ka, va⟩ := a
    by_cases h : ka = k
    · subst h; simp [lookupStore]
    · simp [lookupStore, h, ih]

theorem mem_of_lookupStore_eq_some {s : List (String × α)} {k : String} {v : α}
    (h : lookupStore s k = some v) : (k, v) ∈ s := by
  induction s with
  | nil => simp [lookupStore] at h
  | cons a rest ih =>
    obtain ⟨ka, va⟩ := a
    by_cases hk : ka = k
    · subst hk
      have hv : va = v := by simpa [lookupStore] using h
      subst hv; exact List.mem_cons_self _ _
    · simp only [lookupStore, if_neg hk] at h
      exact List.mem_cons_of_mem _ (ih h)

theorem mem_setKey {s : List (String × α)} {k : String} {v : α} {kv : String × α}
    (h : kv ∈ setKey s k v) : kv ∈ s ∨ kv = (k, v) := by
  induction s with
  | nil =>
    simp only [setKey, List.mem_singleton] at h
    exact Or.inr h
  | cons a rest ih =>
    obtain ⟨ka, va⟩ := a
    simp only [setKey] at h
    by_cases hk : ka = k
    · rw [if_pos hk] at h
      rcases List.mem_cons.mp h with h1 | h1
      · exact Or.inr h1
      · exact Or.inl (List.mem_cons_of_mem _ h1)
    · rw [if_neg hk] at h
      rcases List.mem_cons.mp h with h1 | h1
      · exact Or.inl (h1 ▸ List.mem_cons_self _ _)
      · rcases ih h1 with h2 | h2
        · exact Or.inl (List.mem_cons_of_mem _ h2)
        · exact Or.inr h2

end StoreLemmas

section SortLemmas

variable {α : Type} (le : α → α → Bool)

theorem insertLe_perm (x : α) (l : List α) : (insertLe le x l).Perm (x :: l) := by
  induction l with
  | nil => simp [insertLe]
  | cons y ys ih =>
    simp only [insertLe]
    by_cases h : le x y = true
    · rw [if_pos h]
    · rw [if_neg h]
      exact (ih.cons y).trans (List.Perm.swap x y ys)

theorem sortLe_perm (l : List α) : (sortLe le l).Perm l := by
  induction l with
  | nil => simp [sortLe]
  | cons x xs ih =>
    simp only [sortLe]
    exact (insertLe_perm le x (sortLe le xs)).trans (ih.cons x)

theorem insertLe_pairwise
    (htot : ∀ a b, le a b = true ∨ le b a = true)
    (htrans : ∀ a b c, le a b = true → le b c = true → le a c = true)
    (x : α) (l : List α) (h : l.Pairwise fun a b => le a b = true) :
    (insertLe le x l).Pairwise fun a b => le a b = true := by
  induction l with
  | nil => simp [insertLe]
  | cons y ys ih =>
    rcases List.pairwise_cons.mp h with ⟨hy, hys⟩
    simp only [insertLe]
    by_cases hxy : le x y = true
    · rw [if_pos hxy]
      refine List.pairwise_cons.mpr ⟨?_, h⟩
      intro w hw
      rcases List.mem_cons.mp hw with rfl | hw
      · exact hxy
      · exact htrans x y w hxy (hy w hw)
    · rw [if_neg hxy]
      have hyx : le y x = true := (htot x y).resolve_left hxy
      refine List.pairwise_cons.mpr ⟨?_, ih hys⟩
      intro w hw
      have hw2 : w ∈ x :: ys := (insertLe_perm le x ys).mem_iff.mp hw
      rcases List.mem_cons.mp hw2 with rfl | hw2
      · exact hyx
      · exact hy w hw2

theorem sortLe_pairwise
    (htot : ∀ a b, le a b = true ∨ le b a = true)
    (htrans : ∀ a b c, le a b = true → le b c = true → le a c = true)
    (l : List α) : (sortLe le l).Pairwise fun a b => le a b = true := by
  induction l with
  | nil => simp [sortLe]
  | cons x xs ih =>
    simp only [sortLe]
    exact insertLe_pairwise le htot htrans x (sortLe le xs) ih

theorem sortLe_eq_of_pairwise (l : List α)
    (h : l.Pairwise fun a b => le a b = true) : sortLe le l = l := by
  induction l with
  | nil => simp [sortLe]
  | cons x xs ih =>
    rcases List.pairwise_cons.mp h with ⟨hx, hxs⟩
    simp only [sortLe, ih hxs]
    cases xs with
    | nil => simp [insertLe]
    | cons y ys =>
      have hxy : le x y = true := hx y (List.mem_cons_self _ _)
      simp [insertLe, hxy]

theorem drop_last_max (R : α → α → Prop) (l : List α) (hne : l ≠ [])
    (hp : l.Pairwise R) (hrefl : ∀ a ∈ l, R a a) :
    ∃ m, l.drop (l.length - 1) = [m] ∧ m ∈ l ∧ ∀ x ∈ l, R x m := by
  induction l with
  | nil => exact absurd rfl hne
  | cons a t ih =>
    cases t with
    | nil =>
      refine ⟨a, by simp, List.mem_cons_self _ _, ?_⟩
      intro x hx
      rcases List.mem_cons.mp hx with h1 | h1
      · subst h1; exact hrefl x (List.mem_cons_self _ _)
      · simp at h1
    | cons b t2 =>
      rcases List.pairwise_cons.mp hp with ⟨ha, hbt⟩
      obtain ⟨m, hdrop, hmem, hmax⟩ :=
        ih (by simp) hbt (fun x hx => hrefl x (List.mem_cons_of_mem _ hx))
      refine ⟨m, ?_, List.mem_cons_of_mem _ hmem, ?_⟩
      · have hlen : (a :: b :: t2).length - 1 = (b :: t2).length := by simp
        rw [hlen]
        show List.drop ((b :: t2).length) (a :: b :: t2) = [m]
        have : (b :: t2).length = ((b :: t2).length - 1) + 1 := by simp
        rw [this, List.drop_succ_cons]
        exact hdrop
      · intro x hx
        rcases List.mem_cons.mp hx with rfl | hx
        · exact ha m hmem
        · exact hmax x hx

end SortLemmas

section ComparatorLemmas

variable {β : Type}

theorem compl_total (less : β → β → Bool)
    (hA : ∀ a b, less a b = true → less b a = false) (a b : β) :
    (!less b a) = true ∨ (!less a b) = true := by
  cases h : less b a with
  | false => exact Or.inl (by simp)
  | true => exact Or.inr (by simp [hA _ _ h])

theorem compl_trans (less : β → β → Bool)
    (hN : ∀ a b c, less a b = false → less b c = false → less a c = false)
    (a b c : β) (h1 : (!less b a) = true) (h2 : (!less c b) = true) :
    (!less c a) = true := by
  have h1' : less b a = false := by simpa using h1
  have h2' : less c b = false := by simpa using h2
  simp [hN c b a h2' h1']

theorem compl_refl (less : β → β → Bool)
    (hA : ∀ a b, less a b = true → less b a = false) (a : β) :
    (!less a a) = true := by
  cases h : less a a with
  | false => simp
  | true => have := hA a a h; rw [h] at this; cases this

theorem leVer_total (lt : String → String → Bool) (hA : Asymm lt)
    (a b : PackageMeta) : leVer lt a b = true ∨ leVer lt b a = true :=
  compl_total (fun x y : PackageMeta => lt x.version y.version)
    (fun x y h => hA x.version y.version h) a b

theorem leVer_trans (lt : String → String → Bool) (hN : NegTrans lt)
    (a b c : PackageMeta) (h1 : leVer lt a b = true) (h2 : leVer lt b c = true) :
    leVer lt a c = true :=
  compl_trans (fun x y : PackageMeta => lt x.version y.version)
    (fun x y z hx hy => hN x.version y.version z.version hx hy) a b c h1 h2

theorem leVer_refl (lt : String → String → Bool) (hA : Asymm lt) (a : PackageMeta) :
    leVer lt a a = true :=
  compl_refl (fun x y : PackageMeta => lt x.version y.version)
    (fun x y h => hA x.version y.version h) a

theorem ltNatList_asymm : ∀ a b : List Nat,
    ltNatList a b = true → ltNatList b a = false := by
  intro a
  induction a with
  | nil =>
    intro b h
    cases b with
    | nil => simp [ltNatList] at h
    | cons y ys => simp [ltNatList]
  | cons x xs ih =>
    intro b h
    cases b with
    | nil => simp [ltNatList] at h
    | cons y ys =>
      simp only [ltNatList] at h ⊢
      by_cases hxy : x < y
      · rw [if_neg (by omega : ¬ y < x), if_pos hxy]
      · rw [if_neg hxy] at h
        by_cases hyx : y < x
        · rw [if_pos hyx] at h; cases h
        · rw [if_neg hyx] at h
          rw [if_neg hyx, if_neg hxy]
          exact ih ys h

theorem ltNatList_negtrans : ∀ a b c : List Nat,
    ltNatList a b = false → ltNatList b c = false → ltNatList a c = false := by
  intro a
  induction a with
  | nil =>
    intro b c h1 h2
    cases b with
    | nil => exact h2
    | cons y ys => simp [ltNatList] at h1
  | cons x xs ih =>
    intro b c h1 h2
    cases b with
    | nil =>
      cases c with
      | nil => simp [ltNatList]
      | cons z zs => simp [ltNatList] at h2
    | cons y ys =>
      cases c with
      | nil => simp [ltNatList]
      | cons z zs =>
        simp only [ltNatList] at h1 h2 ⊢
        by_cases hxy : x < y
        · rw [if_pos hxy] at h1; cases h1
        by_cases hyz : y < z
        · rw [if_pos hyz] at h2; cases h2
        rw [if_neg (by omega : ¬ x < z)]
        by_cases hzx : z < x
        · rw [if_pos hzx]
        · rw [if_neg hzx]
          have hyx : ¬ y < x := by omega
          have hzy : ¬ z < y := by omega
          rw [if_neg hxy, if_neg hyx] at h1
          rw [if_neg hyz, if_neg hzy] at h2
          exact ih ys zs h1 h2

theorem ltNatList_eq_of_not : ∀ a b : List Nat,
    ltNatList a b = false → ltNatList b a = false → a = b := by
  intro a
  induction a with
  | nil =>
    intro b h1 h2
    cases b with
    | nil => rfl
    | cons y ys => simp [ltNatList] at h1
  | cons x xs ih =>
    intro b h1 h2
    cases b with
    | nil => simp [ltNatList] at h2
    | cons y ys =>
      simp only [ltNatList] at h1 h2
      by_cases hxy : x < y
      · rw [if_pos hxy] at h1; cases h1
      by_cases hyx : y < x
      · rw [if_pos hyx] at h2; cases h2
      rw [if_neg hxy, if_neg hyx] at h1
      rw [if_neg hyx, if_neg hxy] at h2
      have hxey : x = y := by omega
      rw [hxey, ih ys h1 h2]

theorem ltStr_asymm (a b : String) (h : ltStr a b = true) : ltStr b a = false :=
  ltNatList_asymm _ _ h

theorem ltStr_negtrans (a b c : String) (h1 : ltStr a b = false)
    (h2 : ltStr b c = false) : ltStr a c = false :=
  ltNatList_negtrans _ _ _ h1 h2

theorem ltStr_congr_of_not (a c : String) (h1 : ltStr a c = false)
    (h2 : ltStr c a = false) : ∀ x, ltStr x a = ltStr x c ∧ ltStr a x = ltStr c x := by
  have heq := ltNatList_eq_of_not _ _ h1 h2
  intro x
  constructor
  · unfold ltStr; rw [heq]
  · unfold ltStr; rw [heq]

theorem lessSub_asymm (lt : String → String → Bool) (hA : Asymm lt)
    (a b : SubPackageMeta) (h : lessSub lt a b = true) : lessSub lt b a = false := by
  unfold lessSub at h ⊢
  by_cases hab : ltStr a.name b.name = true
  · rw [if_neg (by simp [ltStr_asymm _ _ hab]), if_pos hab]
  · rw [if_neg hab] at h
    by_cases hba : ltStr b.name a.name = true
    · rw [if_pos hba] at h; cases h
    · rw [if_neg hba] at h
      rw [if_neg hba, if_neg hab]
      exact hA _ _ h

theorem lessSub_negtrans (lt : String → String → Bool) (hN : NegTrans lt)
    (a b c : SubPackageMeta) (h1 : lessSub lt a b = false)
    (h2 : lessSub lt b c = false) : lessSub lt a c = false := by
  unfold lessSub at h1 h2 ⊢
  by_cases hab : ltStr a.name b.name = true
  · rw [if_pos hab] at h1; cases h1
  by_cases hbc : ltStr b.name c.name = true
  · rw [if_pos hbc] at h2; cases h2
  have hab' : ltStr a.name b.name = false := by
    cases h : ltStr a.name b.name
    · rfl
    · exact absurd h hab
  have hbc' : ltStr b.name c.name = false := by
    cases h : ltStr b.name c.name
    · rfl
    · exact absurd h hbc
  have hac : ltStr a.name c.name = false := ltStr_negtrans _ _ _ hab' hbc'
  rw [if_neg (by simp [hac])]
  by_cases hca : ltStr c.name a.name = true
  · rw [if_pos hca]
  · rw [if_neg hca]
    have hca' : ltStr c.name a.name = false := by
      cases h : ltStr c.name a.name
      · rfl
      · exact absurd h hca
    have hcongr := ltStr_congr_of_not a.name c.name hac hca'
    by_cases hba : ltStr b.name a.name = true
    · exfalso
      have : ltStr b.name c.name = true := by
        rw [← (hcongr b.name).1]; exact hba
      rw [this] at hbc'; cases hbc'
    · rw [if_neg hab, if_neg hba] at h1
      by_cases hcb : ltStr c.name b.name = true
      · exfalso
        have : ltStr a.name b.name = true := by
          rw [← (hcongr b.name).2] at hcb; exact hcb
        rw [this] at hab'; cases hab'
      · rw [if_neg hbc, if_neg hcb] at h2
        exact hN _ _ _ h1 h2

theorem leSub_total (lt : String → String → Bool) (hA : Asymm lt)
    (a b : SubPackageMeta) : leSub lt a b = true ∨ leSub lt b a = true :=
  compl_total (lessSub lt) (fun x y h => lessSub_asymm lt hA x y h) a b

theorem leSub_trans (lt : String → String → Bool) (hN : NegTrans lt)
    (a b c : SubPackageMeta) (h1 : leSub lt a b = true) (h2 : leSub lt b c = true) :
    leSub lt a c = true :=
  compl_trans (lessSub lt) (fun x y z hx hy => lessSub_negtrans lt hN x y z hx hy)
    a b c h1 h2

end ComparatorLemmas

theorem pairwise_of_short {α : Type} (R : α → α → Prop) :
    ∀ (l : List α), l.length ≤ 1 → l.Pairwise R
  | [], _ => List.Pairwise.nil
  | [_], _ => by simp
  | _ :: _ :: _, h => by simp at h

theorem removeDuplicatesAux_not_mem_seen :
    ∀ (l seen : List String) (x : String), x ∈ removeDuplicatesAux seen l → x ∉ seen := by
  intro l
  induction l with
  | nil => intro seen x h; simp [removeDuplicatesAux] at h
  | cons a t ih =>
    intro seen x h
    simp only [removeDuplicatesAux] at h
    by_cases ha : a ∈ seen
    · rw [if_pos ha] at h; exact ih seen x h
    · rw [if_neg ha] at h
      rcases List.mem_cons.mp h with h1 | h1
      · subst h1; exact ha
      · intro hx
        exact ih (a :: seen) x h1 (List.mem_cons_of_mem _ hx)

theorem removeDuplicatesAux_nodup :
    ∀ (l seen : List String), (removeDuplicatesAux seen l).Nodup := by
  intro l
  induction l with
  | nil => intro seen; simp [removeDuplicatesAux]
  | cons a t ih =>
    intro seen
    simp only [removeDuplicatesAux]
    by_cases ha : a ∈ seen
    · rw [if_pos ha]; exact ih seen
    · rw [if_neg ha]
      refine List.nodup_cons.mpr ⟨?_, ih (a :: seen)⟩
      intro hmem
      exact removeDuplicatesAux_not_mem_seen t (a :: seen) a hmem
        (List.mem_cons_self _ _)

theorem removeDuplicates_nodup (l : List String) : (removeDuplicates l).Nodup :=
  removeDuplicatesAux_nodup l []

theorem dedup_nodup (l : List String) : (dedup l).Nodup :=
  (sortLe_perm leStr (removeDuplicates l)).symm.nodup (removeDuplicates_nodup l)

theorem trimVersions_sorted (lt : String → String → Bool) (hA : Asymm lt)
    (l : List PackageMeta) (hne : l ≠ [])
    (hp : l.Pairwise fun a b => leVer lt a b = true) :
    ∃ m, trimVersions l = [m] ∧ m ∈ l ∧ ∀ x ∈ l, leVer lt x m = true := by
  unfold trimVersions
  by_cases hlen : l.length > 1
  · rw [if_pos hlen]
    exact drop_last_max _ l hne hp (fun a _ => leVer_refl lt hA a)
  · rw [if_neg hlen]
    have h1 : l.length = 1 := by
      have : 1 ≤ l.length := Nat.one_le_iff_ne_zero.mpr
        (fun h0 => hne (List.length_eq_zero.mp h0))
      omega
    obtain ⟨m, rfl⟩ := List.length_eq_one.mp h1
    refine ⟨m, rfl, List.mem_cons_self _ _, ?_⟩
    intro x hx
    rcases List.mem_cons.mp hx with h2 | h2
    · subst h2; exact leVer_refl lt hA x
    · simp at h2

theorem V7.sortStep_versions_pairwise (lt : String → String → Bool)
    (hA : Asymm lt) (hN : NegTrans lt) (pd : V7.PackageData) :
    (V7.sortStep lt pd).versions.Pairwise fun a b => leVer lt a b = true := by
  unfold V7.sortStep
  have hout : ∀ pd1 : V7.PackageData,
      ((if pd1.subPackages.length > 1 then
          { pd1 with subPackages := sortLe (leSub lt) pd1.subPackages }
        else pd1) : V7.PackageData).versions = pd1.versions := by
    intro pd1
    by_cases h : pd1.subPackages.length > 1
    · rw [if_pos h]
    · rw [if_neg h]
  rw [hout]
  by_cases h : pd.versions.length > 1
  · rw [if_pos h]
    exact sortLe_pairwise (leVer lt) (leVer_total lt hA) (leVer_trans lt hN) pd.versions
  · rw [if_neg h]
    exact pairwise_of_short _ pd.versions (by omega)

theorem V7.sortStep_subPackages_pairwise (lt : String → String → Bool)
    (hA : Asymm lt) (hN : NegTrans lt) (pd : V7.PackageData) :
    (V7.sortStep lt pd).subPackages.Pairwise fun a b => leSub lt a b = true := by
  unfold V7.sortStep
  set pd1 := (if pd.versions.length > 1 then
      { pd with versions := sortLe (leVer lt) pd.versions }
    else pd) with hpd1
  by_cases h : pd1.subPackages.length > 1
  · rw [if_pos h]
    exact sortLe_pairwise (leSub lt) (leSub_total lt hA) (leSub_trans lt hN) pd1.subPackages
  · rw [if_neg h]
    exact pairwise_of_short _ pd1.subPackages (by omega)

theorem V7.sortStep_idem (lt : String → String → Bool)
    (hA : Asymm lt) (hN : NegTrans lt) (pd : V7.PackageData) :
    V7.sortStep lt (V7.sortStep lt pd) = V7.sortStep lt pd := by
  have hv := V7.sortStep_versions_pairwise lt hA hN pd
  have hs := V7.sortStep_subPackages_pairwise lt hA hN pd
  set q := V7.sortStep lt pd with hq
  show V7.sortStep lt q = q
  unfold V7.sortStep
  have h1 : (if q.versions.length > 1 then
      { q with versions := sortLe (leVer lt) q.versions }
    else q) = q := by
    by_cases h : q.versions.length > 1
    · rw [if_pos h, sortLe_eq_of_pairwise (leVer lt) q.versions hv]
    · rw [if_neg h]
  rw [h1]
  by_cases h : q.subPackages.length > 1
  · rw [if_pos h, sortLe_eq_of_pairwise (leSub lt) q.subPackages hs]
  · rw [if_neg h]

theorem V6.sortStep_subPackages_nodup (lt : String → String → Bool)
    (pd : V6.PackageData) : (V6.sortStep lt pd).subPackages.Nodup := by
  simp only [V6.sortStep]
  set pd1 := (if pd.versions.length > 1 then
      { pd with versions := sortLe (leVer lt) pd.versions }
    else pd) with hpd1
  by_cases h : pd1.subPackages.length > 0
  · rw [if_pos h]; exact dedup_nodup _
  · rw [if_neg h]
    have h0 : pd1.subPackages = [] := List.length_eq_zero.mp (by omega)
    rw [h0]; exact List.nodup_nil

theorem V6.sortStep_versions_perm (lt : String → String → Bool)
    (pd : V6.PackageData) : (V6.sortStep lt pd).versions.Perm pd.versions := by
  simp only [V6.sortStep]
  have hout : ∀ pd1 : V6.PackageData,
      ((if pd1.subPackages.length > 0 then
          { pd1 with subPackages := dedup pd1.subPackages }
        else pd1) : V6.PackageData).versions = pd1.versions := by
    intro pd1
    by_cases h : pd1.subPackages.length > 0
    · rw [if_pos h]
    · rw [if_neg h]
  rw [hout]
  by_cases h : pd.versions.length > 1
  · rw [if_pos h]; exact sortLe_perm _ _
  · rw [if_neg h]


theorem V7.lookup_SortStoreV7 (lt : String → String → Bool) (s : V7.Store) (k : String) :
    lookupStore (V7.SortStore lt s) k = (lookupStore s k).map (V7.sortStep lt) :=
  lookupStore_map_values (V7.sortStep lt) s k

theorem V7.lookup_PrintTrimStore (s : V7.Store) (k : String) :
    lookupStore (V7.PrintTrimStore s) k = (lookupStore s k).map V7.printTrimStep :=
  lookupStore_map_values V7.printTrimStep s k

theorem V6.lookup_SortStoreV6 (lt : String → String → Bool) (s : V6.Store) (k : String) :
    lookupStore (V6.SortStore lt s) k = (lookupStore s k).map (V6.sortStep lt) :=
  lookupStore_map_values (V6.sortStep lt) s k

/-- C1: in `part_007` the classification of `AddPackageMeta` is inverted
with respect to the claim and to the function's own comment: a record
whose name matches the query set and whose origin is empty or
non-matching is dropped without touching the store (first conjunct,
evaluating the code at the failing input), while a record whose name
does not match any query is appended as a primary match (second
conjunct).  The sibling `part_006` implementation behaves as the claim
states; see `V6.addMeta_primary_of_name_match` below. -/
theorem c1_v7_misclassifies :
    V7.AddPackageMeta [NewQueryString ("foo")] ⟨"foo", "1.0", "", 0⟩ "wolfi os" []
        = ([] : V7.Store) ∧
    V7.AddPackageMeta [NewQueryString ("foo")] ⟨"bar", "1.0", "", 0⟩ "wolfi os" []
        = [(("bar"),
            { versions := [⟨0, "", "wolfi os", "1.0"⟩], subPackages := [] })] := by
  constructor
  · rfl
  · rfl

/-- C2: after `Sort()`, the `listAllVersions = false` trim of `Print`
(`part_007` lines 157-163, identically `src/main.go` lines 351-359)
leaves exactly one version entry for every key that had at least one,
and that entry is a maximum of the key's entries under the version
comparator, provided the comparator is a strict weak order (asymmetric
and negatively transitive), as `sort.Slice` requires. -/
theorem c2_trim_retains_latest (lt : String → String → Bool)
    (hA : Asymm lt) (hN : NegTrans lt) (s : V7.Store) (k : String)
    (pd : V7.PackageData)
    (hk : lookupStore (V7.SortStore lt s) k = some pd)
    (hne : pd.versions ≠ []) :
    ∃ m, lookupStore (V7.PrintTrimStore (V7.SortStore lt s)) k =
        some { versions := [m], subPackages := pd.subPackages } ∧
      m ∈ pd.versions ∧ ∀ x ∈ pd.versions, leVer lt x m = true := by
  rw [V7.lookup_SortStoreV7 lt s k] at hk
  obtain ⟨pd0, hpd0, hstep⟩ := Option.map_eq_some'.mp hk
  subst hstep
  have hp := V7.sortStep_versions_pairwise lt hA hN pd0
  obtain ⟨m, htrim, hmem, hmax⟩ := trimVersions_sorted lt hA _ hne hp
  refine ⟨m, ?_, hmem, hmax⟩
  rw [V7.lookup_PrintTrimStore (V7.SortStore lt s) k,
    V7.lookup_SortStoreV7 lt s k, hpd0]
  simp [V7.printTrimStep, htrim]

theorem c2_witness :
    ∃ m, lookupStore (V7.PrintTrimStore (V7.SortStore (fun _ _ => false)
        [(("pkg"),
          { versions := [⟨0, "", "r1", "1"⟩, ⟨1, "", "r2", "2"⟩],
            subPackages := [] })])) ("pkg") =
        some { versions := [m], subPackages := [] } ∧
      m ∈ ([⟨0, "", "r1", "1"⟩, ⟨1, "", "r2", "2"⟩] : List PackageMeta) ∧
      ∀ x ∈ ([⟨0, "", "r1", "1"⟩, ⟨1, "", "r2", "2"⟩] : List PackageMeta),
        leVer (fun _ _ => false) x m = true :=
  c2_trim_retains_latest (fun _ _ => false)
    (fun _ _ h => Bool.noConfusion h) (fun _ _ _ _ _ => rfl)
    [(("pkg"),
      { versions := [⟨0, "", "r1", "1"⟩, ⟨1, "", "r2", "2"⟩], subPackages := [] })]
    ("pkg")
    { versions := [⟨0, "", "r1", "1"⟩, ⟨1, "", "r2", "2"⟩], subPackages := [] }
    (by decide) (by decide)

/-- C3: the sub-package filter of `Print` (`part_007` lines 164-172) is
computed but assigned only to a local struct copy, never written back to
the result map, so the stored sub-package list is unchanged by the trim
phase: here the single retained version entry is version 1 in repository
r1, yet the sub-package entry at version 2 in repository r2 survives
(first conjunct), although the computed filter is empty (second
conjunct). -/
theorem c3_subpackage_filter_discarded :
    lookupStore (V7.PrintTrimStore
        [(("python"),
          { versions := [⟨0, "python", "r1", "1"⟩],
            subPackages := [⟨⟨0, "python", "r2", "2"⟩, "python-dev"⟩] })])
        ("python") =
      some { versions := [⟨0, "python", "r1", "1"⟩],
             subPackages := [⟨⟨0, "python", "r2", "2"⟩, "python-dev"⟩] } ∧
    V7.filterSubPackages
        { versions := [⟨0, "python", "r1", "1"⟩],
          subPackages := [⟨⟨0, "python", "r2", "2"⟩, "python-dev"⟩] } = [] := by
  constructor
  · rfl
  · rfl

/-- C4: `Sort()` of `part_007` is idempotent on the whole store - a
second call leaves every versions list and every sub-package list in the
same order - and after one call every versions list is ascending under
the version comparator, provided the comparator is a strict weak order. -/
theorem c4_sort_idempotent (lt : String → String → Bool)
    (hA : Asymm lt) (hN : NegTrans lt) (s : V7.Store) :
    V7.SortStore lt (V7.SortStore lt s) = V7.SortStore lt s ∧
    ∀ k pd, lookupStore (V7.SortStore lt s) k = some pd →
      pd.versions.Pairwise fun a b => leVer lt a b = true := by
  constructor
  · unfold V7.SortStore
    rw [List.map_map]
    apply List.map_congr_left
    intro kv _
    simp [Function.comp, V7.sortStep_idem lt hA hN]
  · intro k pd hk
    rw [V7.lookup_SortStoreV7 lt s k] at hk
    obtain ⟨pd0, _, hstep⟩ := Option.map_eq_some'.mp hk
    exact hstep ▸ V7.sortStep_versions_pairwise lt hA hN pd0

theorem c4_witness :
    V7.SortStore (fun _ _ => false) (V7.SortStore (fun _ _ => false)
        [(("pkg"),
          { versions := [⟨0, "", "r1", "2"⟩, ⟨1, "", "r2", "1"⟩],
            subPackages := [⟨⟨2, "", "r1", "1"⟩, "b"⟩, ⟨⟨3, "", "r1", "1"⟩, "a"⟩] })]) =
      V7.SortStore (fun _ _ => false)
        [(("pkg"),
          { versions := [⟨0, "", "r1", "2"⟩, ⟨1, "", "r2", "1"⟩],
            subPackages := [⟨⟨2, "", "r1", "1"⟩, "b"⟩, ⟨⟨3, "", "r1", "1"⟩, "a"⟩] })] ∧
    ∀ k pd, lookupStore (V7.SortStore (fun _ _ => false)
        [(("pkg"),
          { versions := [⟨0, "", "r1", "2"⟩, ⟨1, "", "r2", "1"⟩],
            subPackages := [⟨⟨2, "", "r1", "1"⟩, "b"⟩, ⟨⟨3, "", "r1", "1"⟩, "a"⟩] })])
        k = some pd →
      pd.versions.Pairwise fun a b => leVer (fun _ _ => false) a b = true :=
  c4_sort_idempotent (fun _ _ => false)
    (fun _ _ h => Bool.noConfusion h) (fun _ _ _ _ _ => rfl)
    [(("pkg"),
      { versions := [⟨0, "", "r1", "2"⟩, ⟨1, "", "r2", "1"⟩],
        subPackages := [⟨⟨2, "", "r1", "1"⟩, "b"⟩, ⟨⟨3, "", "r1", "1"⟩, "a"⟩] })]

/-- C8: after `Sort()` of `part_006`, every key's sub-package name list
is duplicate-free (dedup removes names contributed repeatedly by several
sources or several queries), while the versions list is only permuted -
entries repeated across sources are all preserved. -/
theorem c8_subpackages_deduped_versions_kept (lt : String → String → Bool)
    (s : V6.Store) (k : String) (pd : V6.PackageData)
    (hk : lookupStore (V6.SortStore lt s) k = some pd) :
    pd.subPackages.Nodup ∧
    ∃ pd0, lookupStore s k = some pd0 ∧ pd.versions.Perm pd0.versions := by
  rw [V6.lookup_SortStoreV6 lt s k] at hk
  obtain ⟨pd0, hpd0, hstep⟩ := Option.map_eq_some'.mp hk
  subst hstep
  exact ⟨V6.sortStep_subPackages_nodup lt pd0,
    ⟨pd0, hpd0, V6.sortStep_versions_perm lt pd0⟩⟩

theorem c8_witness :
    ∃ pd : V6.PackageData,
      lookupStore (V6.SortStore (fun _ _ => false)
          [(("p"),
            { versions := [⟨0, "", "r1", "1"⟩, ⟨1, "", "r2", "1"⟩],
              subPackages := ["b", "a", "b"] })]) ("p") = some pd ∧
      pd.subPackages.Nodup ∧
      ∃ pd0, lookupStore
          ([(("p"),
            { versions := [⟨0, "", "r1", "1"⟩, ⟨1, "", "r2", "1"⟩],
              subPackages := ["b", "a", "b"] })] : V6.Store) ("p") = some pd0 ∧
        pd.versions.Perm pd0.versions := by
  refine ⟨{ versions := [⟨0, "", "r1", "1"⟩, ⟨1, "", "r2", "1"⟩],
            subPackages := ["a", "b"] }, by decide, ?_⟩
  exact c8_subpackages_deduped_versions_kept (fun _ _ => false)
    [(("p"),
      { versions := [⟨0, "", "r1", "1"⟩, ⟨1, "", "r2", "1"⟩],
        subPackages := ["b", "a", "b"] })] ("p")
    { versions := [⟨0, "", "r1", "1"⟩, ⟨1, "", "r2", "1"⟩],
      subPackages := ["a", "b"] }
    (by decide)

theorem Q.buildQueries_error_of_bad (compile : String → Option (String → Bool)) :
    ∀ (args : List String) (a : String), a ∈ args → compile a = none →
      ∃ e, Q.buildQueries compile true args = Except.error e := by
  intro args
  induction args with
  | nil => intro a ha; simp at ha
  | cons x rest ih =>
    intro a ha hbad
    rcases List.mem_cons.mp ha with h1 | h1
    · subst h1
      refine ⟨a, ?_⟩
      simp [Q.buildQueries, Q.NewQueryRegexp, hbad]
    · obtain ⟨e, he⟩ := ih a h1 hbad
      simp only [Q.buildQueries, if_true]
      cases hx : Q.NewQueryRegexp compile x with
      | error e2 => exact ⟨e2, rfl⟩
      | ok qx => rw [he]; exact ⟨e, rfl⟩

/-- C5: an invalid pattern string fails at query construction time
(`NewQueryRegexp` of `part_004` returns the compile error), the whole run
aborts before any fetching - the result is the same error for every
fetch function and every source list (first conjunct; the run pipeline is
modelled from the spec since the repository's `execute` driver is not
under `src/`) - and `match` on a successfully constructed pattern query
never fails: it is the total match function of the compiled pattern
(second conjunct). -/
theorem c5_invalid_pattern_fails_fast
    (compile : String → Option (String → Bool)) (args : List String)
    (a : String) (ha : a ∈ args) (hbad : compile a = none) :
    (∃ e, ∀ (fetch : String → List Package) (sources : List String),
        Q.runQ compile true args fetch sources = Except.error e) ∧
    (∀ r qu, Q.NewQueryRegexp compile r = Except.ok qu →
        ∃ re, compile r = some re ∧ ∀ name, qu.matchString name = re name) := by
  constructor
  · obtain ⟨e, he⟩ := Q.buildQueries_error_of_bad compile args a ha hbad
    refine ⟨e, ?_⟩
    intro fetch sources
    simp only [Q.runQ, he]
  · intro r qu h
    cases hc : compile r with
    | none => rw [Q.NewQueryRegexp, hc] at h; cases h
    | some re =>
      rw [Q.NewQueryRegexp, hc] at h
      have hq : qu = { s := "", r := some re } := (Except.ok.inj h).symm
      subst hq
      exact ⟨re, rfl, fun name => rfl⟩

theorem c5_witness :
    (∃ e, ∀ (fetch : String → List Package) (sources : List String),
        Q.runQ (fun s => if s = "[" then none else some (fun _ => true)) true
          ["["] fetch sources = Except.error e) ∧
    (∀ r qu, Q.NewQueryRegexp (fun s => if s = "[" then none else some (fun _ => true)) r
          = Except.ok qu →
        ∃ re, (if r = "[" then none else some (fun _ => true)) = some re ∧
          ∀ name, qu.matchString name = re name) :=
  c5_invalid_pattern_fails_fast
    (fun s => if s = "[" then none else some (fun _ => true))
    ["["] "[" (List.mem_singleton.mpr rfl) (if_pos rfl)

/-- C6 counterexample: in `src/main.go` an HTTP download failure is not
reported-and-tolerated but calls `os.Exit(1)` (line 218), killing the
whole process: the worker result is an exit, not a report, and a run
with a failing source and a healthy sibling aborts instead of printing
the sibling's aggregate. -/
theorem c6_counterexample_download_aborts :
    Chan.worker [] false (fun _ _ => false) false "enterprise packages"
        Chan.FetchOutcome.downloadFailure = Chan.WorkerResult.exited 1 ∧
    Chan.worker [] false (fun _ _ => false) false "enterprise packages"
        Chan.FetchOutcome.downloadFailure ≠ Chan.WorkerResult.reported ∧
    Chan.driver [] false (fun _ _ => false) false
        [(("enterprise packages"), Chan.FetchOutcome.downloadFailure),
         (("wolfi os"), Chan.FetchOutcome.records [⟨"a", "1", "", 0⟩])] = none := by
  refine ⟨rfl, ?_, rfl⟩
  intro h
  cases h

theorem Chan.collect_foldl_filter (queryStrings : List String) (matchAsRegex : Bool)
    (regexMatches : String → String → Bool) (showParent : Bool) :
    ∀ (sources : List (String × Chan.FetchOutcome)),
      (∀ s ∈ sources, s.2 ≠ Chan.FetchOutcome.downloadFailure) →
      ∀ acc, List.foldl Chan.collectStep acc
          (sources.map fun s =>
            Chan.worker queryStrings matchAsRegex regexMatches showParent s.1 s.2) =
        List.foldl Chan.collectStep acc
          ((sources.filter fun s => s.2.isRecords).map fun s =>
            Chan.worker queryStrings matchAsRegex regexMatches showParent s.1 s.2) := by
  intro sources
  induction sources with
  | nil => intro _ acc; rfl
  | cons s rest ih =>
    intro h acc
    obtain ⟨name, f⟩ := s
    have hrest : ∀ s ∈ rest, s.2 ≠ Chan.FetchOutcome.downloadFailure :=
      fun s hs => h s (List.mem_cons_of_mem _ hs)
    cases f with
    | records pkgs =>
      rw [List.map_cons, List.foldl_cons,
        List.filter_cons_of_pos (by rfl), List.map_cons, List.foldl_cons]
      exact ih hrest _
    | downloadFailure =>
      exact absurd rfl (h (name, Chan.FetchOutcome.downloadFailure)
        (List.mem_cons_self _ _))
    | openFailure =>
      rw [List.map_cons, List.foldl_cons, List.filter_cons_of_neg (by simp [Chan.FetchOutcome.isRecords])]
      exact ih hrest _
    | decodeFailure =>
      rw [List.map_cons, List.foldl_cons, List.filter_cons_of_neg (by simp [Chan.FetchOutcome.isRecords])]
      exact ih hrest _

/-- C6 amended: an open or archive-decode failure in one source's worker
is sent to the errors channel (reported) and does not abort the sibling
workers or the process: when no source suffers a download failure, the
run completes and its aggregate is exactly the aggregate of the sources
whose fetch and decode succeeded.  (A download failure, by contrast,
exits the process - see the counterexample theorem.) -/
theorem c6_amended_decode_errors_are_partial (queryStrings : List String)
    (matchAsRegex : Bool) (regexMatches : String → String → Bool) (showParent : Bool)
    (sources : List (String × Chan.FetchOutcome))
    (h : ∀ s ∈ sources, s.2 ≠ Chan.FetchOutcome.downloadFailure) :
    (∀ s ∈ sources,
        s.2 = Chan.FetchOutcome.openFailure ∨ s.2 = Chan.FetchOutcome.decodeFailure →
        Chan.worker queryStrings matchAsRegex regexMatches showParent s.1 s.2 =
          Chan.WorkerResult.reported) ∧
    Chan.driver queryStrings matchAsRegex regexMatches showParent sources =
      some (Chan.collect ((sources.filter fun s => s.2.isRecords).map fun s =>
        Chan.worker queryStrings matchAsRegex regexMatches showParent s.1 s.2)) := by
  constructor
  · intro s _ hcase
    rcases hcase with h2 | h2 <;> rw [h2] <;> rfl
  · have hnoexit : (sources.map fun s =>
        Chan.worker queryStrings matchAsRegex regexMatches showParent s.1 s.2).any
          Chan.WorkerResult.isExited = false := by
      rw [List.any_eq_false]
      intro w hw
      obtain ⟨s, hs, hws⟩ := List.mem_map.mp hw
      subst hws
      cases hf : s.2 with
      | records pkgs => simp [Chan.worker, Chan.WorkerResult.isExited]
      | downloadFailure => exact absurd hf (h s hs)
      | openFailure => simp [Chan.worker, Chan.WorkerResult.isExited]
      | decodeFailure => simp [Chan.worker, Chan.WorkerResult.isExited]
    rw [Chan.driver, hnoexit]
    simp only [Bool.false_eq_true, if_false]
    rw [Chan.collect, Chan.collect,
      Chan.collect_foldl_filter queryStrings matchAsRegex regexMatches showParent
        sources h ([], [], [])]

theorem c6_witness :
    (∀ s ∈ ([(("wolfi os"), Chan.FetchOutcome.records [⟨"a", "1", "", 0⟩]),
             (("extra packages"), Chan.FetchOutcome.openFailure)] :
          List (String × Chan.FetchOutcome)),
        s.2 = Chan.FetchOutcome.openFailure ∨ s.2 = Chan.FetchOutcome.decodeFailure →
        Chan.worker ["a"] false (fun _ _ => false) false s.1 s.2 =
          Chan.WorkerResult.reported) ∧
    Chan.driver ["a"] false (fun _ _ => false) false
        [(("wolfi os"), Chan.FetchOutcome.records [⟨"a", "1", "", 0⟩]),
         (("extra packages"), Chan.FetchOutcome.openFailure)] =
      some (Chan.collect ((([(("wolfi os"), Chan.FetchOutcome.records [⟨"a", "1", "", 0⟩]),
             (("extra packages"), Chan.FetchOutcome.openFailure)] :
          List (String × Chan.FetchOutcome)).filter fun s => s.2.isRecords).map fun s =>
        Chan.worker ["a"] false (fun _ _ => false) false s.1 s.2)) :=
  c6_amended_decode_errors_are_partial ["a"] false (fun _ _ => false) false
    [(("wolfi os"), Chan.FetchOutcome.records [⟨"a", "1", "", 0⟩]),
     (("extra packages"), Chan.FetchOutcome.openFailure)]
    (by decide)

theorem Chan.processPackage_empty (matchAsRegex : Bool)
    (regexMatches : String → String → Bool) (showParent : Bool) (friendly : String)
    (st : Chan.Result × Chan.SubPackagesMap × List PrintedLine) (pkg : Package) :
    Chan.processPackage [] matchAsRegex regexMatches showParent friendly st pkg =
      (st.1, st.2.1, st.2.2 ++ [Chan.renderDirect showParent friendly pkg]) := rfl

theorem Chan.processSource_foldl_empty (matchAsRegex : Bool)
    (regexMatches : String → String → Bool) (showParent : Bool) (friendly : String) :
    ∀ (pkgs : List Package) (acc : Chan.Result × Chan.SubPackagesMap × List PrintedLine),
      List.foldl (Chan.processPackage [] matchAsRegex regexMatches showParent friendly)
          acc pkgs =
        (acc.1, acc.2.1, acc.2.2 ++ pkgs.map (Chan.renderDirect showParent friendly)) := by
  intro pkgs
  induction pkgs with
  | nil => intro acc; simp
  | cons p ps ih =>
    intro acc
    rw [List.foldl_cons, Chan.processPackage_empty, ih]
    simp

theorem Chan.processSource_empty (matchAsRegex : Bool)
    (regexMatches : String → String → Bool) (showParent : Bool) (friendly : String)
    (pkgs : List Package) :
    Chan.processSource [] matchAsRegex regexMatches showParent friendly pkgs =
      ([], [], pkgs.map (Chan.renderDirect showParent friendly)) := by
  rw [Chan.processSource, Chan.processSource_foldl_empty]
  simp

theorem Chan.worker_empty_queries (matchAsRegex : Bool)
    (regexMatches : String → String → Bool) (showParent : Bool) (friendly : String)
    (pkgs : List Package) :
    Chan.worker [] matchAsRegex regexMatches showParent friendly
        (Chan.FetchOutcome.records pkgs) =
      Chan.WorkerResult.contributed [] []
        (pkgs.map (Chan.renderDirect showParent friendly)) := by
  simp only [Chan.worker, Chan.processSource_empty]

theorem Chan.collect_contributed_only :
    ∀ (ls : List (List PrintedLine))
      (acc : Chan.Result × Chan.SubPackagesMap × List PrintedLine),
      List.foldl Chan.collectStep acc
          (ls.map fun lns => Chan.WorkerResult.contributed [] [] lns) =
        (acc.1, acc.2.1, acc.2.2 ++ ls.flatten) := by
  intro ls
  induction ls with
  | nil => intro acc; simp
  | cons l1 rest ih =>
    intro acc
    rw [List.map_cons, List.foldl_cons]
    have hstep : Chan.collectStep acc (Chan.WorkerResult.contributed [] [] l1) =
        (acc.1, acc.2.1, acc.2.2 ++ l1) := rfl
    rw [hstep, ih]
    simp

/-- C7: with an empty query set the aggregation is bypassed entirely: the
run of `src/main.go` stores nothing in the result and sub-package maps,
and prints every decoded record of every source directly, exactly once,
in source-then-decode order, with the parent-info suffix exactly when
`--show-parent-package` was given. -/
theorem c7_empty_queries_bypass (matchAsRegex : Bool)
    (regexMatches : String → String → Bool) (showParent : Bool)
    (sources : List (String × List Package)) :
    Chan.driver [] matchAsRegex regexMatches showParent
        (sources.map fun s => (s.1, Chan.FetchOutcome.records s.2)) =
      some ([], [],
        (sources.map fun s => s.2.map (Chan.renderDirect showParent s.1)).flatten) := by
  have hworkers : (sources.map fun s => (s.1, Chan.FetchOutcome.records s.2)).map
      (fun s => Chan.worker [] matchAsRegex regexMatches showParent s.1 s.2) =
      (sources.map fun s => s.2.map (Chan.renderDirect showParent s.1)).map
        (fun lns => Chan.WorkerResult.contributed [] [] lns) := by
    rw [List.map_map, List.map_map]
    apply List.map_congr_left
    intro s _
    simp [Function.comp, Chan.worker_empty_queries]
  have hany : ((sources.map fun s => s.2.map (Chan.renderDirect showParent s.1)).map
      (fun lns => Chan.WorkerResult.contributed [] [] lns)).any
        Chan.WorkerResult.isExited = false := by
    rw [List.any_eq_false]
    intro w hw
    obtain ⟨lns, _, hw2⟩ := List.mem_map.mp hw
    rw [← hw2]
    simp [Chan.WorkerResult.isExited]
  simp only [Chan.driver]
  rw [hworkers, hany]
  simp only [Bool.false_eq_true, if_false]
  rw [Chan.collect, Chan.collect_contributed_only]
  simp

theorem Chan.addMatch_inv (res : Chan.Result) (pkg : Package) (friendly : String)
    (h : ∀ kv ∈ res, kv.2.subPackages = []) :
    ∀ kv ∈ Chan.addMatch res pkg friendly, kv.2.subPackages = [] := by
  intro kv hkv
  unfold Chan.addMatch at hkv
  cases hl : lookupStore res pkg.name with
  | some pi =>
    rw [hl] at hkv
    rcases mem_setKey hkv with h1 | h1
    · exact h kv h1
    · subst h1
      exact h (pkg.name, pi) (mem_of_lookupStore_eq_some hl)
  | none =>
    rw [hl] at hkv
    rcases mem_setKey hkv with h1 | h1
    · exact h kv h1
    · subst h1; rfl

theorem Chan.queryStep_fst (matchAsRegex : Bool)
    (regexMatches : String → String → Bool) (friendly : String) (pkg : Package)
    (acc : Chan.Result × Chan.SubPackagesMap) (q : String) :
    (Chan.queryStep matchAsRegex regexMatches friendly pkg acc q).1 =
      if Chan.matchFound matchAsRegex regexMatches q pkg.name then
        Chan.addMatch acc.1 pkg friendly
      else acc.1 := by
  simp only [Chan.queryStep]
  by_cases h2 : (pkg.origin != "" && pkg.origin != pkg.name) = true
  · rw [if_pos h2]
    by_cases h1 : Chan.matchFound matchAsRegex regexMatches q pkg.name = true
    · rw [if_pos h1, if_pos h1]
    · rw [if_neg h1, if_neg h1]
  · rw [if_neg h2]
    by_cases h1 : Chan.matchFound matchAsRegex regexMatches q pkg.name = true
    · rw [if_pos h1, if_pos h1]
    · rw [if_neg h1, if_neg h1]

theorem Chan.queryFold_inv (matchAsRegex : Bool)
    (regexMatches : String → String → Bool) (friendly : String) (pkg : Package) :
    ∀ (qs : List String) (acc : Chan.Result × Chan.SubPackagesMap),
      (∀ kv ∈ acc.1, kv.2.subPackages = []) →
      ∀ kv ∈ (List.foldl (Chan.queryStep matchAsRegex regexMatches friendly pkg)
          acc qs).1, kv.2.subPackages = [] := by
  intro qs
  induction qs with
  | nil => intro acc h; exact h
  | cons q rest ih =>
    intro acc h
    rw [List.foldl_cons]
    apply ih
    intro kv hkv
    rw [Chan.queryStep_fst] at hkv
    by_cases h1 : Chan.matchFound matchAsRegex regexMatches q pkg.name = true
    · rw [if_pos h1] at hkv
      exact Chan.addMatch_inv acc.1 pkg friendly h kv hkv
    · rw [if_neg h1] at hkv
      exact h kv hkv

theorem Chan.processPackage_res_inv (queryStrings : List String) (matchAsRegex : Bool)
    (regexMatches : String → String → Bool) (showParent : Bool) (friendly : String)
    (st : Chan.Result × Chan.SubPackagesMap × List PrintedLine) (pkg : Package)
    (h : ∀ kv ∈ st.1, kv.2.subPackages = []) :
    ∀ kv ∈ (Chan.processPackage queryStrings matchAsRegex regexMatches showParent
        friendly st pkg).1, kv.2.subPackages = [] := by
  unfold Chan.processPackage
  by_cases hq : queryStrings.length > 0
  · rw [if_pos hq]
    exact Chan.queryFold_inv matchAsRegex regexMatches friendly pkg queryStrings
      (st.1, st.2.1) h
  · rw [if_neg hq]
    exact h

theorem Chan.processSource_res_inv (queryStrings : List String) (matchAsRegex : Bool)
    (regexMatches : String → String → Bool) (showParent : Bool) (friendly : String) :
    ∀ (pkgs : List Package) (acc : Chan.Result × Chan.SubPackagesMap × List PrintedLine),
      (∀ kv ∈ acc.1, kv.2.subPackages = []) →
      ∀ kv ∈ (List.foldl (Chan.processPackage queryStrings matchAsRegex regexMatches
          showParent friendly) acc pkgs).1, kv.2.subPackages = [] := by
  intro pkgs
  induction pkgs with
  | nil => intro acc h; exact h
  | cons p ps ih =>
    intro acc h
    rw [List.foldl_cons]
    exact ih _ (Chan.processPackage_res_inv queryStrings matchAsRegex regexMatches
      showParent friendly acc p h)

theorem Chan.mergeResults_inv :
    ∀ (loc g : Chan.Result),
      (∀ kv ∈ g, kv.2.subPackages = []) → (∀ kv ∈ loc, kv.2.subPackages = []) →
      ∀ kv ∈ Chan.mergeResults g loc, kv.2.subPackages = [] := by
  intro loc
  induction loc with
  | nil => intro g hg _; exact hg
  | cons kv0 rest ih =>
    intro g hg hloc
    have hstep : ∀ kv ∈ (match lookupStore g kv0.1 with
        | some pi => setKey g kv0.1 { pi with versions := pi.versions ++ kv0.2.versions }
        | none => setKey g kv0.1 kv0.2), kv.2.subPackages = [] := by
      cases hl : lookupStore g kv0.1 with
      | some pi =>
        intro kv hkv
        rcases mem_setKey hkv with h1 | h1
        · exact hg kv h1
        · subst h1
          exact hg (kv0.1, pi) (mem_of_lookupStore_eq_some hl)
      | none =>
        intro kv hkv
        rcases mem_setKey hkv with h1 | h1
        · exact hg kv h1
        · subst h1
          exact hloc kv0 (List.mem_cons_self _ _)
    exact ih _ hstep (fun kv hkv => hloc kv (List.mem_cons_of_mem _ hkv))

theorem Chan.collect_res_inv (queryStrings : List String) (matchAsRegex : Bool)
    (regexMatches : String → String → Bool) (showParent : Bool) :
    ∀ (sources : List (String × Chan.FetchOutcome))
      (acc : Chan.Result × Chan.SubPackagesMap × List PrintedLine),
      (∀ kv ∈ acc.1, kv.2.subPackages = []) →
      ∀ kv ∈ (List.foldl Chan.collectStep acc
          (sources.map fun s => Chan.worker queryStrings matchAsRegex regexMatches
            showParent s.1 s.2)).1, kv.2.subPackages = [] := by
  intro sources
  induction sources with
  | nil => intro acc h; exact h
  | cons s rest ih =>
    intro acc h
    rw [List.map_cons, List.foldl_cons]
    apply ih
    cases hf : s.2 with
    | records pkgs =>
      exact Chan.mergeResults_inv _ acc.1 h
        (Chan.processSource_res_inv queryStrings matchAsRegex regexMatches showParent
          s.1 pkgs ([], [], []) (fun kv hkv => by simp at hkv))
    | downloadFailure => exact h
    | openFailure => exact h
    | decodeFailure => exact h

theorem Chan.lookup_sortPhase (lt : String → String → Bool)
    (subs : Chan.SubPackagesMap) :
    ∀ (res : Chan.Result) (k : String),
      lookupStore (Chan.sortPhase lt subs res) k =
        (lookupStore res k).map fun pi => (Chan.sortPhaseStep lt subs (k, pi)).2 := by
  intro res
  induction res with
  | nil => intro k; rfl
  | cons a rest ih =>
    intro k
    simp only [Chan.sortPhase] at ih
    obtain ⟨ka, va⟩ := a
    show lookupStore (Chan.sortPhaseStep lt subs (ka, va) ::
        List.map (Chan.sortPhaseStep lt subs) rest) k = _
    by_cases hc : va.versions.length > 1
    · have hstep : Chan.sortPhaseStep lt subs (ka, va) =
          (ka, { versions := sortLe (leVer lt) va.versions,
                 subPackages := removeDuplicates (Chan.getSubs subs ka) }) := by
        simp [Chan.sortPhaseStep, hc]
      rw [hstep]
      by_cases hk : ka = k
      · subst hk
        simp [lookupStore, Chan.sortPhaseStep, hc]
      · simp [lookupStore, hk, ih k]
    · have hstep : Chan.sortPhaseStep lt subs (ka, va) = (ka, va) := by
        simp [Chan.sortPhaseStep, hc]
      rw [hstep]
      by_cases hk : ka = k
      · subst hk
        simp [lookupStore, Chan.sortPhaseStep, hc]
      · simp [lookupStore, hk, ih k]

/-- C10: in the channel-based `src/main.go`, the deduplicated sub-package
name list is attached only inside the `len(Versions) > 1` branch of the
sort phase (lines 336-349), and aggregation itself never fills the
`SubPackages` field, so a package key holding exactly one version entry
after the run always carries an empty sub-package list, even when the
sub-package map has gathered names for it. -/
theorem c10_single_version_no_subpackages (queryStrings : List String)
    (matchAsRegex : Bool) (regexMatches : String → String → Bool) (showParent : Bool)
    (lt : String → String → Bool) (sources : List (String × Chan.FetchOutcome))
    (final : Chan.Result)
    (hrun : Chan.runChan queryStrings matchAsRegex regexMatches showParent lt sources
      = some final)
    (k : String) (pi : Chan.PackageInfo) (hk : lookupStore final k = some pi)
    (hone : pi.versions.length = 1) : pi.subPackages = [] := by
  unfold Chan.runChan at hrun
  cases hD : Chan.driver queryStrings matchAsRegex regexMatches showParent sources with
  | none => rw [hD] at hrun; cases hrun
  | some out =>
    rw [hD] at hrun
    obtain ⟨res, subs, lines⟩ := out
    have hfinal : final = Chan.sortPhase lt subs res := (Option.some.inj hrun).symm
    subst hfinal
    have hres : ∀ kv ∈ res, kv.2.subPackages = [] := by
      unfold Chan.driver at hD
      by_cases hex : ((sources.map fun s => Chan.worker queryStrings matchAsRegex
          regexMatches showParent s.1 s.2).any Chan.WorkerResult.isExited) = true
      · rw [if_pos hex] at hD; cases hD
      · rw [if_neg hex] at hD
        have hcol := Option.some.inj hD
        have hinv := Chan.collect_res_inv queryStrings matchAsRegex regexMatches
          showParent sources ([], [], []) (fun kv hkv => by simp at hkv)
        intro kv hkv
        have hmem : kv ∈ (Chan.collect (sources.map fun s =>
            Chan.worker queryStrings matchAsRegex regexMatches showParent s.1 s.2)).1 := by
          rw [hcol]; exact hkv
        exact hinv kv hmem
    rw [Chan.lookup_sortPhase] at hk
    obtain ⟨pi0, hpi0, hstep⟩ := Option.map_eq_some'.mp hk
    have hpi0inv : pi0.subPackages = [] := hres _ (mem_of_lookupStore_eq_some hpi0)
    by_cases hc : pi0.versions.length > 1
    · exfalso
      have hv : pi.versions = sortLe (leVer lt) pi0.versions := by
        rw [← hstep]; simp [Chan.sortPhaseStep, hc]
      have hlen : pi.versions.length = pi0.versions.length := by
        rw [hv]; exact (sortLe_perm (leVer lt) pi0.versions).length_eq
      omega
    · have hpi : pi = pi0 := by
        rw [← hstep]; simp [Chan.sortPhaseStep, hc]
      rw [hpi, hpi0inv]

theorem c10_witness :
    Chan.runChan ["a"] false (fun _ _ => false) false (fun _ _ => false)
        [(("wolfi os"),
          Chan.FetchOutcome.records [⟨"a", "1", "", 0⟩, ⟨"a-dev", "1", "a", 0⟩])] =
      some [(("a"),
        { versions := [⟨0, "", "wolfi os", "1"⟩], subPackages := [] })] ∧
    lookupStore
        ([(("a"),
          { versions := [⟨0, "", "wolfi os", "1"⟩], subPackages := [] })] : Chan.Result)
        ("a") =
      some { versions := [⟨0, "", "wolfi os", "1"⟩], subPackages := [] } ∧
    ({ versions := [⟨0, "", "wolfi os", "1"⟩],
       subPackages := [] } : Chan.PackageInfo).versions.length = 1 ∧
    ({ versions := [⟨0, "", "wolfi os", "1"⟩],
       subPackages := [] } : Chan.PackageInfo).subPackages = [] :=
  ⟨by decide, by decide, by decide,
    c10_single_version_no_subpackages ["a"] false (fun _ _ => false) false
      (fun _ _ => false)
      [(("wolfi os"),
        Chan.FetchOutcome.records [⟨"a", "1", "", 0⟩, ⟨"a-dev", "1", "a", 0⟩])]
      [(("a"), { versions := [⟨0, "", "wolfi os", "1"⟩], subPackages := [] })]
      (by decide) ("a")
      { versions := [⟨0, "", "wolfi os", "1"⟩], subPackages := [] }
      (by decide) (by decide)⟩

theorem V6.lookup_addMeta (q : List Matcher) (pkg : Package) (repo : String)
    (s : V6.Store) (k : String) :
    lookupStore (V6.AddPackageMeta q pkg repo s) k =
      V6.stepAt q pkg repo k (lookupStore s k) := by
  simp only [V6.AddPackageMeta, V6.stepAt]
  by_cases hm : matchReference q pkg.name = true
  · rw [if_pos hm, if_pos hm]
    by_cases hnk : pkg.name = k
    · subst hnk
      rw [if_pos rfl]
      cases hl : lookupStore s pkg.name with
      | some pd => rw [lookupStore_setKey, if_pos rfl]
      | none => rw [lookupStore_setKey, if_pos rfl]
    · rw [if_neg hnk]
      cases hl : lookupStore s pkg.name with
      | some pd => rw [lookupStore_setKey, if_neg hnk]
      | none => rw [lookupStore_setKey, if_neg hnk]
  · rw [if_neg hm, if_neg hm]
    by_cases ho : (pkg.origin.length != 0 && matchReference q pkg.origin) = true
    · rw [if_pos ho, if_pos ho]
      by_cases hnk : pkg.origin = k
      · subst hnk
        rw [if_pos rfl]
        cases hl : lookupStore s pkg.origin with
        | some pd => rw [lookupStore_setKey, if_pos rfl]
        | none => rw [lookupStore_setKey, if_pos rfl]
      · rw [if_neg hnk]
        cases hl : lookupStore s pkg.origin with
        | some pd => rw [lookupStore_setKey, if_neg hnk]
        | none => rw [lookupStore_setKey, if_neg hnk]
    · rw [if_neg ho, if_neg ho]

theorem V6.stepAt_other (q : List Matcher) (pkg : Package) (repo : String)
    (k : String) (cur : Option V6.PackageData)
    (h : V6.touchedKey q pkg ≠ some k) : V6.stepAt q pkg repo k cur = cur := by
  simp only [V6.stepAt, V6.touchedKey] at *
  by_cases hm : matchReference q pkg.name = true
  · rw [if_pos hm] at h ⊢
    rw [if_neg (fun hh => h (by rw [hh]))]
  · rw [if_neg hm] at h ⊢
    by_cases ho : (pkg.origin.length != 0 && matchReference q pkg.origin) = true
    · rw [if_pos ho] at h ⊢
      rw [if_neg (fun hh => h (by rw [hh]))]
    · rw [if_neg ho]

theorem V6.lookup_runCalls_congr (q : List Matcher) (k : String) :
    ∀ (calls : List (Package × String)) (s1 s2 : V6.Store),
      lookupStore s1 k = lookupStore s2 k →
      lookupStore (V6.runCalls q s1 calls) k =
        lookupStore (V6.runCalls q s2 calls) k := by
  intro calls
  induction calls with
  | nil => intro s1 s2 h; exact h
  | cons c rest ih =>
    intro s1 s2 h
    exact ih (V6.AddPackageMeta q c.1 c.2 s1) (V6.AddPackageMeta q c.1 c.2 s2)
      (by rw [V6.lookup_addMeta, V6.lookup_addMeta, h])

theorem V6.lookup_runCalls_filter (q : List Matcher) (k : String) :
    ∀ (calls : List (Package × String)) (s : V6.Store),
      lookupStore (V6.runCalls q s calls) k =
        lookupStore (V6.runCalls q s (calls.filter fun c =>
          decide (V6.touchedKey q c.1 = some k))) k := by
  intro calls
  induction calls with
  | nil => intro s; rfl
  | cons c rest ih =>
    intro s
    by_cases ht : V6.touchedKey q c.1 = some k
    · rw [List.filter_cons_of_pos (by simp [ht])]
      exact ih (V6.AddPackageMeta q c.1 c.2 s)
    · rw [List.filter_cons_of_neg (by simp [ht])]
      have hskip : lookupStore (V6.AddPackageMeta q c.1 c.2 s) k = lookupStore s k := by
        rw [V6.lookup_addMeta, V6.stepAt_other q c.1 c.2 k _ ht]
      calc lookupStore (V6.runCalls q (V6.AddPackageMeta q c.1 c.2 s) rest) k
          = lookupStore (V6.runCalls q s rest) k :=
            V6.lookup_runCalls_congr q k rest _ s hskip
        _ = lookupStore (V6.runCalls q s (rest.filter fun c =>
              decide (V6.touchedKey q c.1 = some k))) k := ih s

theorem get_append_cons {β : Type} :
    ∀ (pre : List β) (a : β) (post : List β)
      (h : pre.length < (pre ++ a :: post).length),
      (pre ++ a :: post).get ⟨pre.length, h⟩ = a
  | [], _, _, _ => rfl
  | _ :: pre, a, post, _ => get_append_cons pre a post (by simp)

theorem get_append_other {β : Type} :
    ∀ (pre : List β) (a b : β) (post : List β) (j : Nat)
      (hj1 : j < (pre ++ a :: post).length) (hj2 : j < (pre ++ b :: post).length),
      j ≠ pre.length →
      (pre ++ a :: post).get ⟨j, hj1⟩ = (pre ++ b :: post).get ⟨j, hj2⟩ := by
  intro pre
  induction pre with
  | nil =>
    intro a b post j hj1 hj2 hne
    cases j with
    | zero => exact absurd rfl hne
    | succ n => rfl
  | cons c pre ih =>
    intro a b post j hj1 hj2 hne
    cases j with
    | zero => rfl
    | succ n =>
      exact ih a b post n (by simpa using hj1) (by simpa using hj2)
        (fun hh => hne (by simp [hh]))

theorem interleaving_filter {α : Type} (p : α → Bool) {ls : List (List α)}
    {l : List α} (h : Interleaving ls l) :
    Interleaving (ls.map (List.filter p)) (l.filter p) := by
  induction h with
  | nil ls hnil =>
    refine Interleaving.nil _ ?_
    intro w hw
    obtain ⟨w0, hw0, hmap⟩ := List.mem_map.mp hw
    rw [← hmap, hnil w0 hw0]
    rfl
  | step pre x xs post l hint ih =>
    rw [List.map_append, List.map_cons]
    rw [List.map_append, List.map_cons] at ih
    cases hp : p x with
    | true =>
      rw [show (x :: xs).filter p = x :: xs.filter p from List.filter_cons_of_pos hp,
        show (x :: l).filter p = x :: l.filter p from List.filter_cons_of_pos hp]
      exact Interleaving.step _ x _ _ _ ih
    | false =>
      have hneg : ¬ p x = true := by simp [hp]
      rw [show (x :: xs).filter p = xs.filter p from List.filter_cons_of_neg hneg,
        show (x :: l).filter p = l.filter p from List.filter_cons_of_neg hneg]
      exact ih

theorem interleaving_single {α : Type} {ls : List (List α)} {l : List α}
    (h : Interleaving ls l) :
    ∀ (i : Nat) (hi : i < ls.length),
      (∀ (j : Nat) (hj : j < ls.length), j ≠ i → ls.get ⟨j, hj⟩ = []) →
      l = ls.get ⟨i, hi⟩ := by
  induction h with
  | nil ls hnil =>
    intro i hi _
    exact (hnil _ (List.get_mem ls i hi)).symm
  | step pre x xs post l hint ih =>
    intro i hi hothers
    have hipre : i = pre.length := by
      by_contra hne
      have h0 := hothers pre.length (by simp) (fun hh => hne hh.symm)
      rw [get_append_cons pre (x :: xs) post (by simp)] at h0
      cases h0
    subst hipre
    have hothers2 : ∀ (j : Nat) (hj : j < (pre ++ xs :: post).length),
        j ≠ pre.length → (pre ++ xs :: post).get ⟨j, hj⟩ = [] := by
      intro j hj hne
      have hj1 : j < (pre ++ (x :: xs) :: post).length := by
        simp at hj ⊢
        omega
      rw [get_append_other pre xs (x :: xs) post j hj hj1 hne]
      exact hothers j hj1 hne
    have hl2 : l = xs := by
      rw [ih pre.length (by simp) hothers2, get_append_cons pre xs post (by simp)]
    rw [get_append_cons pre (x :: xs) post hi, hl2]

theorem get_map_eq {α β : Type} (f : α → β) (l : List α) (i : Nat)
    (h1 : i < (l.map f).length) (h2 : i < l.length) :
    (l.map f).get ⟨i, h1⟩ = f (l.get ⟨i, h2⟩) := by
  simp [List.get_eq_getElem, List.getElem_map]

/-- C9: under the atomic-interleaving semantics justified by the mutex
that guards the whole body of `AddPackageMeta`, any interleaved execution
of N workers' call sequences leaves, at every key touched only by worker
i, exactly the value that worker i's own sequential execution produces:
the store after the barrier is the union of the workers' contributions,
with no lost updates. -/
theorem c9_disjoint_workers_union (q : List Matcher)
    (ls : List (List (Package × String))) (l : List (Package × String))
    (hint : Interleaving ls l) (i : Nat) (hi : i < ls.length) (k : String)
    (hothers : ∀ (j : Nat) (hj : j < ls.length), j ≠ i →
      ∀ c ∈ ls.get ⟨j, hj⟩, V6.touchedKey q c.1 ≠ some k) :
    lookupStore (V6.runCalls q [] l) k =
      lookupStore (V6.runCalls q [] (ls.get ⟨i, hi⟩)) k := by
  have hfil := interleaving_filter (fun c => decide (V6.touchedKey q c.1 = some k)) hint
  have hmaplen :
      (ls.map (List.filter fun c => decide (V6.touchedKey q c.1 = some k))).length =
        ls.length := by simp
  have hi2 : i < (ls.map (List.filter fun c =>
      decide (V6.touchedKey q c.1 = some k))).length := by rw [hmaplen]; exact hi
  have hsingle : l.filter (fun c => decide (V6.touchedKey q c.1 = some k)) =
      (ls.map (List.filter fun c => decide (V6.touchedKey q c.1 = some k))).get
        ⟨i, hi2⟩ := by
    apply interleaving_single hfil
    intro j hj hne
    rw [get_map_eq _ ls j hj (by rw [hmaplen] at hj; exact hj)]
    rw [List.filter_eq_nil_iff]
    intro c hc
    simp [hothers j (by rw [hmaplen] at hj; exact hj) hne c hc]
  have hget : (ls.map (List.filter fun c =>
      decide (V6.touchedKey q c.1 = some k))).get ⟨i, hi2⟩ =
      (ls.get ⟨i, hi⟩).filter (fun c => decide (V6.touchedKey q c.1 = some k)) :=
    get_map_eq _ ls i hi2 hi
  calc lookupStore (V6.runCalls q [] l) k
      = lookupStore (V6.runCalls q []
          (l.filter fun c => decide (V6.touchedKey q c.1 = some k))) k :=
        V6.lookup_runCalls_filter q k l []
    _ = lookupStore (V6.runCalls q []
          ((ls.get ⟨i, hi⟩).filter fun c =>
            decide (V6.touchedKey q c.1 = some k))) k := by rw [hsingle, hget]
    _ = lookupStore (V6.runCalls q [] (ls.get ⟨i, hi⟩)) k :=
        (V6.lookup_runCalls_filter q k (ls.get ⟨i, hi⟩) []).symm

theorem c9_witness :
    lookupStore (V6.runCalls [NewQueryString ("a"), NewQueryString ("b")] []
        [((⟨"b", "2", "", 0⟩ : Package), "extra packages"),
         ((⟨"a", "1", "", 0⟩ : Package), "wolfi os")]) ("a") =
      lookupStore (V6.runCalls [NewQueryString ("a"), NewQueryString ("b")] []
        [((⟨"a", "1", "", 0⟩ : Package), "wolfi os")]) ("a") :=
  c9_disjoint_workers_union [NewQueryString ("a"), NewQueryString ("b")]
    [[((⟨"a", "1", "", 0⟩ : Package), "wolfi os")],
     [((⟨"b", "2", "", 0⟩ : Package), "extra packages")]]
    [((⟨"b", "2", "", 0⟩ : Package), "extra packages"),
     ((⟨"a", "1", "", 0⟩ : Package), "wolfi os")]
    (by
      refine Interleaving.step [[((⟨"a", "1", "", 0⟩ : Package), "wolfi os")]]
        ((⟨"b", "2", "", 0⟩ : Package), "extra packages") [] []
        [((⟨"a", "1", "", 0⟩ : Package), "wolfi os")] ?_
      refine Interleaving.step [] ((⟨"a", "1", "", 0⟩ : Package), "wolfi os") [] [[]] [] ?_
      exact Interleaving.nil [[], []] (by decide))
    0 (by decide) ("a") (by decide)

theorem V6.addMeta_primary_of_name_match (q : List Matcher) (pkg : Package)
    (repo : String) (s : V6.Store) (h : matchReference q pkg.name = true) :
    V6.touchedKey q pkg = some pkg.name ∧
    lookupStore (V6.AddPackageMeta q pkg repo s) pkg.name =
      some (match lookupStore s pkg.name with
        | some pd => { pd with versions :=
            pd.versions ++ [⟨pkg.buildTime, pkg.origin, repo, pkg.version⟩] }
        | none =>
            { versions := [⟨pkg.buildTime, pkg.origin, repo, pkg.version⟩],
              subPackages := [] }) ∧
    ∀ k, k ≠ pkg.name → lookupStore (V6.AddPackageMeta q pkg repo s) k =
      lookupStore s k := by
  refine ⟨by simp [V6.touchedKey, h], ?_, ?_⟩
  · rw [V6.lookup_addMeta]
    simp [V6.stepAt, h]
  · intro k hk
    rw [V6.lookup_addMeta, V6.stepAt_other q pkg repo k _
      (by simp [V6.touchedKey, h]; exact fun hh => hk hh.symm)]
